import Mathlib

/-!
Verification of the planner item lifecycle and reconciliation engine
(`proxyserver.ts` + `db/schema.sql`).

The SQLite table `planner_items` is embedded as a list of `PlannerRow`
(list order = rowid order), together with the `AUTOINCREMENT` counter and
the `planner_events` audit table.  Each prepared SQL statement and each
Express route handler of `proxyserver.ts` becomes an explicit state
transformer.  The platform-dependent derivation of `scheduled_time` from a
due timestamp (JS `new Date(...).getHours()` in the local timezone) is kept
as an explicit function parameter `derive`, as is the wall-clock string
produced by `new Date().toISOString()` (parameter `now`).
-/

inductive TodoOrigin
  | canvas
  | manual
deriving DecidableEq, Repr

inductive ArchiveReason
  | completed
  | deleted
deriving DecidableEq, Repr

/-- `planner_events.event_type` is the archive reason string or `restored`. -/
inductive EventType
  | archival (reason : ArchiveReason)
  | restored
deriving DecidableEq, Repr

/-- One row of the `planner_items` table (interface `PlannerRow`). -/
structure PlannerRow where
  id : Nat
  external_id : Option Nat
  origin : TodoOrigin
  title : String
  notes : Option String
  due_at : Option String
  scheduled_time : Option String
  created_at : Option String
  completed : Bool
  archived_at : Option String
  archived_reason : Option ArchiveReason
deriving DecidableEq, Repr

/-- One row of the `planner_events` table (only the columns the claims
mention: the owning item and the event type). -/
structure PlannerEvent where
  planner_item_id : Nat
  event_type : EventType
deriving DecidableEq, Repr

/-- The durable store: `planner_items` in rowid order, the AUTOINCREMENT
counter for the next primary key, and `planner_events`. -/
structure DbState where
  rows : List PlannerRow
  nextId : Nat
  events : List PlannerEvent
deriving DecidableEq, Repr

def emptyDb : DbState := ⟨[], 1, []⟩

/-- `CanvasAssignment` as consumed by the sync loop. -/
structure CanvasAssignment where
  id : Nat
  name : String
  due_at : Option String
  created_at : Option String
  locked_for_user : Bool
deriving DecidableEq, Repr

/-- `CanvasTodo`: `todo?.assignment` may be absent. -/
structure CanvasTodo where
  assignment : Option CanvasAssignment
deriving DecidableEq, Repr

/-- Route outcome: 200 JSON state, 400 invalid request, 404 not found. -/
inductive Resp
  | ok
  | invalid
  | notFound
deriving DecidableEq, Repr

/-- JS `x || null` applied to an optional string: the empty string is falsy
and collapses to null. -/
def normStr : Option String → Option String
  | none => none
  | some s => if s = "" then none else some s

/-- JS `String.prototype.trim()`: strip leading and trailing whitespace. -/
def jsTrim (s : String) : String :=
  ⟨((s.data.dropWhile Char.isWhitespace).reverse.dropWhile Char.isWhitespace).reverse⟩

/-- WHERE clause of `selectItemByOrigin` specialised to origin `canvas`
(the only way the source invokes it). -/
def canvasPred (e : Nat) (r : PlannerRow) : Bool :=
  decide (r.origin = TodoOrigin.canvas ∧ r.external_id = some e)

/-- `selectItemByOrigin.get("canvas", e)`: first matching row in rowid order. -/
def findCanvas (s : DbState) (e : Nat) : Option PlannerRow :=
  s.rows.find? (canvasPred e)

/-- Row effect of the `updateCanvasItem` prepared statement:
`SET title, due_at, scheduled_time, created_at = COALESCE(created_at, @created_at)`. -/
def updRow (title : String) (due sched : Option String) (createdAt : String)
    (r : PlannerRow) : PlannerRow :=
  { r with
    title := title
    due_at := due
    scheduled_time := sched
    created_at := some (match r.created_at with | some c => c | none => createdAt) }

/-- The `updateCanvasItem` statement: `UPDATE planner_items ... WHERE id = @id`. -/
def updateCanvasItem (rid : Nat) (title : String) (due sched : Option String)
    (createdAt : String) (s : DbState) : DbState :=
  { s with rows := s.rows.map fun r => if r.id = rid then updRow title due sched createdAt r else r }

/-- The row produced by the `insertCanvasItem` statement. -/
def mkCanvasRow (newId e : Nat) (title : String) (due sched : Option String)
    (createdAt : String) : PlannerRow :=
  ⟨newId, some e, TodoOrigin.canvas, title, none, due, sched, some createdAt, false, none, none⟩

/-- One iteration of the `for (const todo of todos)` loop of
`syncCanvasAssignments`.  `derive` is the local-time `HH:MM` derivation from
a parsed due timestamp (`null` when parsing yields `NaN`); `now` is the
fallback `new Date().toISOString()` for a missing source `created_at`. -/
def stepTodo (derive : String → Option String) (now : String)
    (s : DbState) (td : CanvasTodo) : DbState :=
  match td.assignment with
  | none => s
  | some a =>
    if a.locked_for_user then s
    else
      let dueAt := normStr a.due_at
      let createdAt := match normStr a.created_at with | some c => c | none => now
      let sched := match dueAt with | none => none | some d => derive d
      match findCanvas s a.id with
      | none =>
          { s with
            rows := s.rows ++ [mkCanvasRow s.nextId a.id a.name dueAt sched createdAt]
            nextId := s.nextId + 1 }
      | some r =>
          if r.archived_reason.isSome then s
          else updateCanvasItem r.id a.name dueAt sched createdAt s

/-- `syncCanvasAssignments` over an already-fetched batch. -/
def syncCanvasAssignments (derive : String → Option String) (now : String)
    (batch : List CanvasTodo) (s : DbState) : DbState :=
  batch.foldl (stepTodo derive now) s

/-- Row effect of `archiveItemStatement`:
`completed = CASE WHEN @reason = 'completed' THEN 1 ELSE completed END`,
`archived_at = @archived_at`, `archived_reason = @reason`. -/
def archiveRow (reason : ArchiveReason) (archivedAt : String) (r : PlannerRow) : PlannerRow :=
  { r with
    completed := match reason with | .completed => true | .deleted => r.completed
    archived_at := some archivedAt
    archived_reason := some reason }

/-- Row effect of `restoreItemStatement`. -/
def restoreRow (r : PlannerRow) : PlannerRow :=
  { r with completed := false, archived_at := none, archived_reason := none }

/-- `POST /api/planner/:id/archive`.  `rid = 0` models the falsy-id guard
(`!id` for `parseInt` returning `0`/`NaN`).  The statement's `changes`
count decides between 404 and appending the audit event. -/
def archiveRoute (rid : Nat) (reason : ArchiveReason) (archivedAt : String)
    (s : DbState) : DbState × Resp :=
  if rid = 0 then (s, .invalid)
  else
    let changed := s.rows.countP fun r => decide (r.id = rid)
    let rows' := s.rows.map fun r => if r.id = rid then archiveRow reason archivedAt r else r
    if changed = 0 then ({ s with rows := rows' }, .notFound)
    else ({ s with rows := rows', events := s.events ++ [⟨rid, .archival reason⟩] }, .ok)

/-- `POST /api/planner/:id/restore`. -/
def restoreRoute (rid : Nat) (s : DbState) : DbState × Resp :=
  if rid = 0 then (s, .invalid)
  else
    let changed := s.rows.countP fun r => decide (r.id = rid)
    let rows' := s.rows.map fun r => if r.id = rid then restoreRow r else r
    if changed = 0 then ({ s with rows := rows' }, .notFound)
    else ({ s with rows := rows', events := s.events ++ [⟨rid, .restored⟩] }, .ok)

/-- `POST /api/planner/manual`.  `text` is absent (`none`) or a string; the
guard `!text` rejects a missing or empty string, then the title is trimmed. -/
def manualRoute (text : Option String) (due sched : Option String) (now : String)
    (s : DbState) : DbState × Resp :=
  match text with
  | none => (s, .invalid)
  | some t =>
    if t = "" then (s, .invalid)
    else
      ({ s with
          rows := s.rows ++
            [⟨s.nextId, none, TodoOrigin.manual, jsTrim t, none, normStr due,
              normStr sched, some now, false, none, none⟩]
          nextId := s.nextId + 1 }, .ok)

/-- `DELETE /api/planner/:id`: `deleteItemStatement` plus the schema's
`ON DELETE CASCADE` on `planner_events`. -/
def deleteRoute (rid : Nat) (s : DbState) : DbState × Resp :=
  if rid = 0 then (s, .invalid)
  else
    let changed := s.rows.countP fun r => decide (r.id = rid)
    if changed = 0 then (s, .notFound)
    else
      ({ s with
          rows := s.rows.filter fun r => decide (¬ r.id = rid)
          events := s.events.filter fun ev => decide (¬ ev.planner_item_id = rid) }, .ok)

/-! ### State projection (`getActiveTodos`, `getArchivedByReason`) -/

/-- `CASE WHEN due_at IS NULL THEN 1 ELSE 0 END`. -/
def keyDue (r : PlannerRow) : Nat :=
  match r.due_at with | none => 1 | some _ => 0

/-- `COALESCE(due_at, created_at)`. -/
def keyCo (r : PlannerRow) : Option String :=
  match r.due_at with | some d => some d | none => r.created_at

/-- Strict lexicographic comparison of character lists; SQLite's default
TEXT collation is byte order on UTF-8, which agrees with codepoint order. -/
def charListLt : List Char → List Char → Bool
  | [], [] => false
  | [], _ :: _ => true
  | _ :: _, [] => false
  | a :: as, b :: bs => if a < b then true else if b < a then false else charListLt as bs

/-- Reflexive lexicographic comparison of character lists. -/
def charListLe : List Char → List Char → Bool
  | [], _ => true
  | _ :: _, [] => false
  | a :: as, b :: bs => if a < b then true else if b < a then false else charListLe as bs

def strLt (a b : String) : Prop := charListLt a.data b.data = true

def strLe (a b : String) : Prop := charListLe a.data b.data = true

instance : DecidableRel strLt := fun a b => by unfold strLt; infer_instance

instance : DecidableRel strLe := fun a b => by unfold strLe; infer_instance

/-- SQLite ascending comparison on a nullable TEXT column: NULL orders
before every value. -/
def optLE : Option String → Option String → Prop
  | none, _ => True
  | some _, none => False
  | some a, some b => strLe a b

/-- Strict version of `optLE`. -/
def optLT : Option String → Option String → Prop
  | none, none => False
  | none, some _ => True
  | some _, none => False
  | some a, some b => strLt a b

instance : DecidableRel optLE := fun a b =>
  match a, b with
  | none, _ => inferInstanceAs (Decidable True)
  | some _, none => inferInstanceAs (Decidable False)
  | some x, some y => inferInstanceAs (Decidable (strLe x y))

instance : DecidableRel optLT := fun a b =>
  match a, b with
  | none, none => inferInstanceAs (Decidable False)
  | none, some _ => inferInstanceAs (Decidable True)
  | some _, none => inferInstanceAs (Decidable False)
  | some x, some y => inferInstanceAs (Decidable (strLt x y))

/-- The `ORDER BY` of `getActiveTodos`, as a lexicographic compare on
`(due-null flag, COALESCE(due_at, created_at), created_at)`. -/
def rowLE (a b : PlannerRow) : Prop :=
  keyDue a < keyDue b ∨
    (keyDue a = keyDue b ∧
      (optLT (keyCo a) (keyCo b) ∨
        (keyCo a = keyCo b ∧ optLE a.created_at b.created_at)))

instance : DecidableRel rowLE := fun a b => by
  unfold rowLE; infer_instance

/-- The `ORDER BY archived_at DESC` of `getArchivedByReason`. -/
def archLE (a b : PlannerRow) : Prop :=
  optLE b.archived_at a.archived_at

instance : DecidableRel archLE := fun a b => by
  unfold archLE; infer_instance

/-- Rows of the `getActiveTodos` query result, in result order. -/
def activeRows (s : DbState) : List PlannerRow :=
  List.insertionSort rowLE (s.rows.filter fun r => r.archived_reason.isNone)

/-- Rows of the `getArchivedByReason` query result, in result order. -/
def archivedRows (reason : ArchiveReason) (s : DbState) : List PlannerRow :=
  List.insertionSort archLE (s.rows.filter fun r => decide (r.archived_reason = some reason))

/-- The payload shape produced by `mapRowToTodo` (interface `PlannerItem`). -/
structure PlannerItem where
  id : Nat
  external_id : Option Nat
  text : String
  due_at : Option String
  created_at : Option String
  completed : Bool
  origin : TodoOrigin
  scheduled_time : Option String
  archived_at : Option String
  archived_reason : Option ArchiveReason
deriving DecidableEq, Repr

def mapRowToTodo (r : PlannerRow) : PlannerItem :=
  ⟨r.id, r.external_id, r.title, r.due_at, r.created_at, r.completed, r.origin,
    r.scheduled_time, r.archived_at, r.archived_reason⟩

def getActiveTodos (s : DbState) : List PlannerItem :=
  (activeRows s).map mapRowToTodo

def getArchivedByReason (reason : ArchiveReason) (s : DbState) : List PlannerItem :=
  (archivedRows reason s).map mapRowToTodo

/-- `getPlannerState`. -/
structure PlannerStateView where
  active : List PlannerItem
  archiveCompleted : List PlannerItem
  archiveDeleted : List PlannerItem
deriving DecidableEq, Repr

def getPlannerState (s : DbState) : PlannerStateView :=
  ⟨getActiveTodos s, getArchivedByReason .completed s, getArchivedByReason .deleted s⟩

/-! ### Schema-level well-formedness

Facts enforced by `db/schema.sql` itself, hence true of every store the
program can observe: `id` is an `INTEGER PRIMARY KEY AUTOINCREMENT`
(positive, unique, below the autoincrement counter), `created_at` is
`NOT NULL`, `(origin, external_id)` is unique for non-NULL `external_id`
(index `planner_items_origin_external_unique`; manual inserts never supply
an `external_id`). -/

def WF (s : DbState) : Prop :=
  0 < s.nextId ∧
  (∀ r ∈ s.rows, 0 < r.id) ∧
  (∀ r ∈ s.rows, r.id < s.nextId) ∧
  (s.rows.map PlannerRow.id).Nodup ∧
  (∀ r ∈ s.rows, r.created_at ≠ none) ∧
  (∀ r ∈ s.rows, r.origin = TodoOrigin.manual → r.external_id = none) ∧
  s.rows.Pairwise (fun a b =>
    a.origin = TodoOrigin.canvas → b.origin = TodoOrigin.canvas →
      a.external_id ≠ none → a.external_id ≠ b.external_id)

instance : DecidablePred WF := fun s => by
  unfold WF; infer_instance

/-- States reachable from the empty store through the program's mutating
operations. -/
inductive Reachable : DbState → Prop
  | empty : Reachable emptyDb
  | manual {s} (text due sched : Option String) (now : String) :
      Reachable s → Reachable (manualRoute text due sched now s).1
  | syncPass {s} (derive : String → Option String) (now : String) (batch : List CanvasTodo) :
      Reachable s → Reachable (syncCanvasAssignments derive now batch s)
  | archive {s} (rid : Nat) (reason : ArchiveReason) (archivedAt : String) :
      Reachable s → Reachable (archiveRoute rid reason archivedAt s).1
  | restore {s} (rid : Nat) :
      Reachable s → Reachable (restoreRoute rid s).1
  | purge {s} (rid : Nat) :
      Reachable s → Reachable (deleteRoute rid s).1

/-! ### Concrete states used by examples, witnesses and counterexamples -/

/-- The ordering the specification describes for the active list, stated
in the spec's own terms: items without `due_at` after all items with
`due_at`; among items with `due_at` ascending by `due_at` with ties broken
by ascending `created_at`; items without `due_at` ascending by
`created_at`.  This is the spec-side relation, to be compared with the
SQL `ORDER BY` comparator `rowLE`. -/
def claimOrd (a b : PlannerRow) : Prop :=
  match a.due_at, b.due_at with
  | some da, some db => strLt da db ∨ (da = db ∧ optLE a.created_at b.created_at)
  | some _, none => True
  | none, some _ => False
  | none, none => optLE a.created_at b.created_at

/-- Spec's ordering scenario: `A(due_at=T1)`. -/
def exRowA : PlannerRow :=
  ⟨1, none, .manual, "A", none, some "2024-02-01T10:00:00Z", none, some "2024-01-05T00:00:00Z",
    false, none, none⟩

/-- Spec's ordering scenario: `B(due_at=null, created_at=T0)`. -/
def exRowB : PlannerRow :=
  ⟨2, none, .manual, "B", none, none, none, some "2024-01-01T00:00:00Z", false, none, none⟩

/-- Spec's ordering scenario: `C(due_at=T2)`, `T1 < T2`. -/
def exRowC : PlannerRow :=
  ⟨3, none, .manual, "C", none, some "2024-03-01T10:00:00Z", none, some "2024-01-06T00:00:00Z",
    false, none, none⟩

def exOrderState : DbState := ⟨[exRowB, exRowA, exRowC], 4, []⟩

/-- An archived (completed) row: no active row with id 1 exists here. -/
def c5Row : PlannerRow :=
  ⟨1, none, .manual, "task", none, none, none, some "2024-01-01T00:00:00Z", true,
    some "2024-01-02T00:00:00Z", some .completed⟩

def c5State : DbState := ⟨[c5Row], 2, []⟩

/-- An active row: no archived row with id 1 exists here. -/
def c6Row : PlannerRow :=
  ⟨1, none, .manual, "task", none, none, none, some "2024-01-01T00:00:00Z", false, none, none⟩

def c6State : DbState := ⟨[c6Row], 2, []⟩

/-- Insert a manual item, archive it as completed, then archive it again as
deleted — a sequence of lifecycle operations starting from the empty store. -/
def c9BadState : DbState :=
  (archiveRoute 1 .deleted "2024-01-03T00:00:00Z"
    (archiveRoute 1 .completed "2024-01-02T00:00:00Z"
      (manualRoute (some "task") none none "2024-01-01T00:00:00Z" emptyDb).1).1).1

/-- An archived canvas row, for resurrection and sync witnesses. -/
def c1Row : PlannerRow :=
  ⟨1, some 501, .canvas, "Essay", none, some "2024-05-01T10:00:00Z", some "10:00",
    some "2024-04-01T00:00:00Z", true, some "2024-05-02T00:00:00Z", some .completed⟩

def c1State : DbState := ⟨[c1Row], 2, []⟩

/-- A candidate assignment sharing the archived row's `external_id`. -/
def c1Asg : CanvasAssignment :=
  ⟨501, "Essay v2", some "2024-05-02T09:00:00Z", some "2024-04-01T00:00:00Z", false⟩

def c1Candidate : CanvasTodo := ⟨some c1Asg⟩

/-- A store with one row in each projection bucket. -/
def c10State : DbState :=
  ⟨[⟨1, none, .manual, "a", none, none, none, some "2024-01-01T00:00:00Z", false, none, none⟩,
    ⟨2, none, .manual, "b", none, none, none, some "2024-01-02T00:00:00Z", true,
      some "2024-01-03T00:00:00Z", some .completed⟩,
    ⟨3, none, .manual, "c", none, none, none, some "2024-01-04T00:00:00Z", false,
      some "2024-01-05T00:00:00Z", some .deleted⟩], 4, []⟩

/-- Row-level completion invariant that actually holds on reachable
states: a completed-archived row is marked completed, and a completed mark
implies the row is archived (with either reason). -/
def completionInv (r : PlannerRow) : Prop :=
  (r.archived_reason = some ArchiveReason.completed → r.completed = true) ∧
  (r.completed = true → r.archived_reason ≠ none)

/-- The `scheduled_time` the sync loop derives for a candidate due value. -/
def schedOf (derive : String → Option String) (d : Option String) : Option String :=
  match normStr d with
  | none => none
  | some x => derive x

/-- Some member of the batch is an unfiltered candidate with this
`external_id`. -/
def unfilteredIn (t : List CanvasTodo) (e : Nat) : Prop :=
  ∃ td ∈ t, ∃ a, td.assignment = some a ∧ a.locked_for_user = false ∧ a.id = e

/-- The candidate `a` has already been absorbed into state `Y`: the canvas
row with its `external_id` exists and is either archived (so the sync loop
skips it) or carries exactly the fields the loop would write. -/
def resolved (derive : String → Option String) (a : CanvasAssignment) (Y : DbState) : Prop :=
  ∃ ρ, findCanvas Y a.id = some ρ ∧
    (ρ.archived_reason ≠ none ∨
      (ρ.archived_reason = none ∧ ρ.title = a.name ∧ ρ.due_at = normStr a.due_at ∧
        ρ.scheduled_time = schedOf derive a.due_at ∧ ρ.created_at ≠ none))

/-- Rows `y` and `z` are equal, or differ only in the reconciler-updatable
fields (`title`, `due_at`, `scheduled_time`) of an active canvas row whose
`external_id` is still covered by an unfiltered candidate of `t`. -/
def rowRelT (t : List CanvasTodo) (y z : PlannerRow) : Prop :=
  y = z ∨
    (y.id = z.id ∧ y.origin = z.origin ∧ y.external_id = z.external_id ∧
      y.notes = z.notes ∧ y.created_at = z.created_at ∧ y.completed = z.completed ∧
      y.archived_at = z.archived_at ∧ y.archived_reason = z.archived_reason ∧
      y.origin = TodoOrigin.canvas ∧ y.archived_reason = none ∧ y.created_at ≠ none ∧
      ∃ e, y.external_id = some e ∧ unfilteredIn t e)

/-- States that agree except as allowed by `rowRelT` row by row. -/
def RelT (t : List CanvasTodo) (Y Z : DbState) : Prop :=
  Y.nextId = Z.nextId ∧ Y.events = Z.events ∧ List.Forall₂ (rowRelT t) Y.rows Z.rows

/-- A one-candidate batch that inserts a fresh canvas row. -/
def c2Batch : List CanvasTodo :=
  [⟨some ⟨77, "New assignment", some "2024-05-01T10:00:00Z", some "2024-04-01T00:00:00Z",
    false⟩⟩]

/-- The row of `c9BadState`: completed yet archived with reason deleted. -/
def c9Row : PlannerRow :=
  ⟨1, none, .manual, "task", none, none, none, some "2024-01-01T00:00:00Z", true,
    some "2024-01-03T00:00:00Z", some .deleted⟩

/-! ### Order facts for the projection comparators -/

theorem charListLe_refl (l : List Char) : charListLe l l = true := by
  induction l with
  | nil => rfl
  | cons a as ih => simp [charListLe, ih]

theorem charListLe_eq_not_lt : ∀ a b, charListLe a b = !charListLt b a
  | [], [] => rfl
  | [], _ :: _ => rfl
  | _ :: _, [] => rfl
  | a :: as, b :: bs => by
    simp only [charListLe, charListLt, charListLe_eq_not_lt as bs]
    rcases lt_trichotomy a b with h | h | h
    · simp [h, lt_asymm h]
    · subst h; simp
    · simp [h, lt_asymm h]

theorem charListLt_trans : ∀ a b c, charListLt a b = true → charListLt b c = true →
    charListLt a c = true
  | [], [], _ => by simp [charListLt]
  | [], _ :: _, [] => by simp [charListLt]
  | [], _ :: _, _ :: _ => by simp [charListLt]
  | _ :: _, [], _ => by simp [charListLt]
  | _ :: _, _ :: _, [] => by simp [charListLt]
  | a :: as, b :: bs, c :: cs => by
    intro h₁ h₂
    simp only [charListLt] at h₁ h₂ ⊢
    rcases lt_trichotomy a b with hab | hab | hab
    · rcases lt_trichotomy b c with hbc | hbc | hbc
      · simp [lt_trans hab hbc]
      · subst hbc; simp [hab]
      · simp [lt_asymm hbc, hbc] at h₂
    · subst hab
      rw [if_neg (lt_irrefl a), if_neg (lt_irrefl a)] at h₁
      rcases lt_trichotomy a c with hac | hac | hac
      · simp [hac]
      · subst hac
        rw [if_neg (lt_irrefl a), if_neg (lt_irrefl a)] at h₂ ⊢
        exact charListLt_trans as bs cs h₁ h₂
      · simp [lt_asymm hac, hac] at h₂
    · simp [lt_asymm hab, hab] at h₁

theorem charListLt_trichotomy : ∀ a b, charListLt a b = true ∨ a = b ∨ charListLt b a = true
  | [], [] => .inr (.inl rfl)
  | [], _ :: _ => .inl rfl
  | _ :: _, [] => .inr (.inr rfl)
  | a :: as, b :: bs => by
    rcases lt_trichotomy a b with h | h | h
    · left; simp [charListLt, h]
    · subst h
      rcases charListLt_trichotomy as bs with ih | ih | ih
      · left; simp [charListLt, ih]
      · right; left; rw [ih]
      · right; right; simp [charListLt, ih]
    · right; right; simp [charListLt, h]

theorem charListLe_trans (a b c : List Char) (h₁ : charListLe a b = true)
    (h₂ : charListLe b c = true) : charListLe a c = true := by
  rw [charListLe_eq_not_lt] at h₁ h₂ ⊢
  simp only [Bool.not_eq_true'] at h₁ h₂ ⊢
  cases hca : charListLt c a with
  | false => rfl
  | true =>
    rcases charListLt_trichotomy c b with h | h | h
    · rw [h] at h₂; cases h₂
    · subst h; rw [hca] at h₁; cases h₁
    · rw [charListLt_trans b c a h hca] at h₁; cases h₁

theorem charListLt_irrefl (l : List Char) : charListLt l l = false := by
  induction l with
  | nil => rfl
  | cons a as ih => simp [charListLt, ih]

theorem charListLe_total (a b : List Char) :
    charListLe a b = true ∨ charListLe b a = true := by
  rw [charListLe_eq_not_lt, charListLe_eq_not_lt, Bool.not_eq_true', Bool.not_eq_true']
  cases h₁ : charListLt b a with
  | false => exact .inl rfl
  | true =>
    cases h₂ : charListLt a b with
    | false => exact .inr rfl
    | true =>
      have h₃ := charListLt_trans a b a h₂ h₁
      rw [charListLt_irrefl] at h₃
      cases h₃

theorem strEq_of_data {a b : String} (h : a.data = b.data) : a = b := by
  cases a; cases b; exact congrArg String.mk h

theorem optLE_refl (x : Option String) : optLE x x := by
  cases x with
  | none => trivial
  | some s => exact charListLe_refl s.data

theorem optLE_total (x y : Option String) : optLE x y ∨ optLE y x := by
  cases x with
  | none => exact .inl trivial
  | some a =>
    cases y with
    | none => exact .inr trivial
    | some b => exact charListLe_total a.data b.data

theorem optLE_trans (x y z : Option String) (h₁ : optLE x y) (h₂ : optLE y z) : optLE x z := by
  cases x with
  | none => trivial
  | some a =>
    cases y with
    | none => cases h₁
    | some b =>
      cases z with
      | none => cases h₂
      | some c => exact charListLe_trans a.data b.data c.data h₁ h₂

theorem optLT_trans (x y z : Option String) (h₁ : optLT x y) (h₂ : optLT y z) : optLT x z := by
  cases x with
  | none =>
    cases y with
    | none => cases h₁
    | some b =>
      cases z with
      | none => cases h₂
      | some c => trivial
  | some a =>
    cases y with
    | none => cases h₁
    | some b =>
      cases z with
      | none => cases h₂
      | some c => exact charListLt_trans a.data b.data c.data h₁ h₂

theorem optLT_trichotomy (x y : Option String) : optLT x y ∨ x = y ∨ optLT y x := by
  cases x with
  | none =>
    cases y with
    | none => exact .inr (.inl rfl)
    | some b => exact .inl trivial
  | some a =>
    cases y with
    | none => exact .inr (.inr trivial)
    | some b =>
      rcases charListLt_trichotomy a.data b.data with h | h | h
      · exact .inl h
      · exact .inr (.inl (by rw [strEq_of_data h]))
      · exact .inr (.inr h)

instance : IsTotal PlannerRow rowLE := by
  constructor
  intro a b
  unfold rowLE
  rcases Nat.lt_trichotomy (keyDue a) (keyDue b) with h | h | h
  · exact .inl (.inl h)
  · rcases optLT_trichotomy (keyCo a) (keyCo b) with h₂ | h₂ | h₂
    · exact .inl (.inr ⟨h, .inl h₂⟩)
    · rcases optLE_total a.created_at b.created_at with h₃ | h₃
      · exact .inl (.inr ⟨h, .inr ⟨h₂, h₃⟩⟩)
      · exact .inr (.inr ⟨h.symm, .inr ⟨h₂.symm, h₃⟩⟩)
    · exact .inr (.inr ⟨h.symm, .inl h₂⟩)
  · exact .inr (.inl h)

instance : IsTrans PlannerRow rowLE := by
  constructor
  intro a b c h₁ h₂
  unfold rowLE at h₁ h₂ ⊢
  rcases h₁ with h₁ | ⟨e₁, h₁⟩
  · rcases h₂ with h₂ | ⟨e₂, h₂⟩
    · exact .inl (Nat.lt_trans h₁ h₂)
    · exact .inl (by omega)
  · rcases h₂ with h₂ | ⟨e₂, h₂⟩
    · exact .inl (by omega)
    · refine .inr ⟨e₁.trans e₂, ?_⟩
      rcases h₁ with h₁ | ⟨f₁, h₁⟩
      · rcases h₂ with h₂ | ⟨f₂, h₂⟩
        · exact .inl (optLT_trans _ _ _ h₁ h₂)
        · exact .inl (by rw [← f₂]; exact h₁)
      · rcases h₂ with h₂ | ⟨f₂, h₂⟩
        · exact .inl (by rw [f₁]; exact h₂)
        · exact .inr ⟨f₁.trans f₂, optLE_trans _ _ _ h₁ h₂⟩

instance : IsTotal PlannerRow archLE := by
  constructor
  intro a b
  rcases optLE_total b.archived_at a.archived_at with h | h
  · exact .inl h
  · exact .inr h

instance : IsTrans PlannerRow archLE := by
  constructor
  intro a b c h₁ h₂
  exact optLE_trans _ _ _ h₂ h₁

/-! ### Route unfolding helpers -/

theorem countP_id_ne_zero {s : DbState} {rid : Nat} (h : ∃ r ∈ s.rows, r.id = rid) :
    (s.rows.countP fun r => decide (r.id = rid)) ≠ 0 := by
  obtain ⟨r, hr, hr'⟩ := h
  intro h0
  have := List.countP_eq_zero.mp h0 r hr
  simp [hr'] at this

theorem archiveRoute_found {s : DbState} {rid : Nat} {reason : ArchiveReason} {t : String}
    (hid : rid ≠ 0) (h : ∃ r ∈ s.rows, r.id = rid) :
    archiveRoute rid reason t s =
      ({ s with
          rows := s.rows.map fun r => if r.id = rid then archiveRow reason t r else r
          events := s.events ++ [⟨rid, .archival reason⟩] }, Resp.ok) := by
  have hc := countP_id_ne_zero h
  simp [archiveRoute, hid, hc]

theorem restoreRoute_found {s : DbState} {rid : Nat}
    (hid : rid ≠ 0) (h : ∃ r ∈ s.rows, r.id = rid) :
    restoreRoute rid s =
      ({ s with
          rows := s.rows.map fun r => if r.id = rid then restoreRow r else r
          events := s.events ++ [⟨rid, .restored⟩] }, Resp.ok) := by
  have hc := countP_id_ne_zero h
  simp [restoreRoute, hid, hc]

/-! ### C3 -/

/-- C3: for every active item (`archived_reason` and `archived_at` both
null), `archive(id, reason)` followed by `restore(id)` produces a store
whose rows are the original rows with that item's `completed` reset to
false and its archive fields null; in particular the resulting row agrees
with the pre-archive row on `title`, `due_at`, `scheduled_time`,
`created_at`, `id`, `origin` and `external_id`, has `completed = false`,
and has `archived_at` and `archived_reason` null again. -/
theorem c3_archive_restore_round_trip (s : DbState) (r : PlannerRow)
    (reason : ArchiveReason) (t : String)
    (hr : r ∈ s.rows) (hid : r.id ≠ 0)
    (hact : r.archived_reason = none) (hat : r.archived_at = none) :
    ((restoreRoute r.id (archiveRoute r.id reason t s).1).1).rows =
      s.rows.map (fun x => if x.id = r.id then
        { x with completed := false, archived_at := none, archived_reason := none } else x) ∧
    ∃ r' ∈ ((restoreRoute r.id (archiveRoute r.id reason t s).1).1).rows,
      r'.id = r.id ∧ r'.origin = r.origin ∧ r'.external_id = r.external_id ∧
      r'.title = r.title ∧ r'.due_at = r.due_at ∧ r'.scheduled_time = r.scheduled_time ∧
      r'.created_at = r.created_at ∧ r'.completed = false ∧
      r'.archived_at = none ∧ r'.archived_reason = none := by
  rw [archiveRoute_found hid ⟨r, hr, rfl⟩]
  have harc : ∃ x ∈ (s.rows.map fun x => if x.id = r.id then archiveRow reason t x else x),
      x.id = r.id := by
    refine ⟨if r.id = r.id then archiveRow reason t r else r, List.mem_map_of_mem _ hr, ?_⟩
    simp [archiveRow]
  rw [restoreRoute_found hid harc]
  constructor
  · simp only [List.map_map]
    refine List.map_congr_left fun x hx => ?_
    by_cases hxid : x.id = r.id
    · simp [hxid, archiveRow, restoreRow]
    · simp [hxid]
  · refine ⟨{ r with completed := false, archived_at := none, archived_reason := none }, ?_, ?_⟩
    · simp only [List.map_map]
      have : ({ r with completed := false, archived_at := none, archived_reason := none}
          : PlannerRow) = ((fun x => if x.id = r.id then restoreRow x else x) ∘
            (fun x => if x.id = r.id then archiveRow reason t x else x)) r := by
        simp [archiveRow, restoreRow]
      rw [this]
      exact List.mem_map_of_mem _ hr
    · refine ⟨rfl, rfl, rfl, rfl, rfl, rfl, rfl, rfl, rfl, rfl⟩

/-! ### C4 -/

/-- C4: the reconciliation update statement (`updateCanvasItem`) never
changes a row's `created_at` (given the schema's `NOT NULL` on
`created_at`), nor its `completed`, `archived_at`, `archived_reason`,
`id`, `origin`, `external_id` or `notes`; only `title`, `due_at` and
`scheduled_time` may change. -/
theorem c4_update_frame (s : DbState) (rid : Nat) (title : String)
    (due sched : Option String) (cAt : String) (r : PlannerRow)
    (hr : r ∈ s.rows) (hc : r.created_at ≠ none) :
    ∃ r' ∈ (updateCanvasItem rid title due sched cAt s).rows,
      r'.id = r.id ∧ r'.created_at = r.created_at ∧ r'.completed = r.completed ∧
      r'.archived_at = r.archived_at ∧ r'.archived_reason = r.archived_reason ∧
      r'.origin = r.origin ∧ r'.external_id = r.external_id ∧ r'.notes = r.notes := by
  refine ⟨if r.id = rid then updRow title due sched cAt r else r,
    List.mem_map_of_mem _ hr, ?_⟩
  by_cases hxid : r.id = rid
  · obtain ⟨c, hc'⟩ := Option.ne_none_iff_exists'.mp hc
    simp [hxid, updRow, hc']
  · simp [hxid]

theorem c3_witness :
    c6Row ∈ c6State.rows ∧ c6Row.id ≠ 0 ∧ c6Row.archived_reason = none ∧
      c6Row.archived_at = none ∧
    (((restoreRoute c6Row.id (archiveRoute c6Row.id .completed "2024-02-01T00:00:00Z"
        c6State).1).1).rows =
      c6State.rows.map (fun x => if x.id = c6Row.id then
        { x with completed := false, archived_at := none, archived_reason := none } else x) ∧
    ∃ r' ∈ ((restoreRoute c6Row.id (archiveRoute c6Row.id .completed "2024-02-01T00:00:00Z"
        c6State).1).1).rows,
      r'.id = c6Row.id ∧ r'.origin = c6Row.origin ∧ r'.external_id = c6Row.external_id ∧
      r'.title = c6Row.title ∧ r'.due_at = c6Row.due_at ∧
      r'.scheduled_time = c6Row.scheduled_time ∧
      r'.created_at = c6Row.created_at ∧ r'.completed = false ∧
      r'.archived_at = none ∧ r'.archived_reason = none) :=
  ⟨by decide, by decide, by decide, by decide,
    c3_archive_restore_round_trip c6State c6Row .completed "2024-02-01T00:00:00Z"
      (by decide) (by decide) (by decide) (by decide)⟩

theorem c4_witness :
    c6Row ∈ c6State.rows ∧ c6Row.created_at ≠ none ∧
    ∃ r' ∈ (updateCanvasItem 1 "new title" (some "2024-03-01T00:00:00Z") (some "09:00")
        "2024-02-02T00:00:00Z" c6State).rows,
      r'.id = c6Row.id ∧ r'.created_at = c6Row.created_at ∧ r'.completed = c6Row.completed ∧
      r'.archived_at = c6Row.archived_at ∧ r'.archived_reason = c6Row.archived_reason ∧
      r'.origin = c6Row.origin ∧ r'.external_id = c6Row.external_id ∧ r'.notes = c6Row.notes :=
  ⟨by decide, by decide,
    c4_update_frame c6State 1 "new title" (some "2024-03-01T00:00:00Z") (some "09:00")
      "2024-02-02T00:00:00Z" c6Row (by decide) (by decide)⟩

/-! ### C5 -/

/-- C5 fails on the code: `archiveItemStatement` filters only on `id`, so
invoking archive on an id whose only row is already archived does not
return 404 — it succeeds, overwrites `archived_at` and `archived_reason`,
and leaves `completed` untouched. -/
theorem c5_counterexample :
    (∀ r ∈ c5State.rows, r.archived_reason ≠ none) ∧
    (archiveRoute 1 .deleted "2024-01-03T00:00:00Z" c5State).2 = Resp.ok ∧
    (archiveRoute 1 .deleted "2024-01-03T00:00:00Z" c5State).1.rows =
      [⟨1, none, .manual, "task", none, none, none, some "2024-01-01T00:00:00Z", true,
        some "2024-01-03T00:00:00Z", some .deleted⟩] := by
  decide

/-- C5 amended: the archive route reports not-found exactly when no row
(of any archive state) with the requested id exists, and in that case it
performs no mutation.  An archived row is re-archived rather than
protected. -/
theorem c5_amended (s : DbState) (rid : Nat) (reason : ArchiveReason) (t : String)
    (hid : rid ≠ 0) :
    ((archiveRoute rid reason t s).2 = Resp.notFound ↔ ∀ r ∈ s.rows, r.id ≠ rid) ∧
    ((archiveRoute rid reason t s).2 = Resp.notFound → (archiveRoute rid reason t s).1 = s) := by
  by_cases hzero : (s.rows.countP fun r => decide (r.id = rid)) = 0
  · have hall := List.countP_eq_zero.mp hzero
    have hrows : (s.rows.map fun r => if r.id = rid then archiveRow reason t r else r) =
        s.rows := by
      rw [show s.rows.map (fun r => if r.id = rid then archiveRow reason t r else r) =
          s.rows.map id from List.map_congr_left fun x hx => by
        have := hall x hx
        simp only [decide_eq_true_eq] at this
        simp [this], List.map_id]
    constructor
    · simp only [archiveRoute, if_neg hid, hzero, if_pos rfl]
      constructor
      · intro _ r hr
        have := hall r hr
        simpa using this
      · intro _; rfl
    · intro _
      simp [archiveRoute, hid, hzero, hrows]
  · have hex : ∃ r ∈ s.rows, r.id = rid := by
      obtain ⟨r, hr, hp⟩ := List.countP_pos_iff.mp (Nat.pos_of_ne_zero hzero)
      exact ⟨r, hr, by simpa using hp⟩
    rw [archiveRoute_found hid hex]
    constructor
    · simp only [Resp]
      constructor
      · intro h; cases h
      · intro hall
        obtain ⟨r, hr, hp⟩ := hex
        exact absurd hp (hall r hr)
    · intro h; cases h

theorem c5_witness :
    ((archiveRoute 7 .deleted "2024-01-03T00:00:00Z" c5State).2 = Resp.notFound ↔
      ∀ r ∈ c5State.rows, r.id ≠ 7) ∧
    ((archiveRoute 7 .deleted "2024-01-03T00:00:00Z" c5State).2 = Resp.notFound →
      (archiveRoute 7 .deleted "2024-01-03T00:00:00Z" c5State).1 = c5State) :=
  c5_amended c5State 7 .deleted "2024-01-03T00:00:00Z" (by decide)

/-! ### C6 -/

/-- C6 fails on the code: `restoreItemStatement` filters only on `id`, so
restoring an id whose only row is active does not return 404 — it succeeds
and appends a `restored` audit event. -/
theorem c6_counterexample :
    (∀ r ∈ c6State.rows, r.archived_reason = none) ∧
    (restoreRoute 1 c6State).2 = Resp.ok ∧
    (restoreRoute 1 c6State).1.events = [⟨1, .restored⟩] := by
  decide

/-- C6 amended: the restore route reports not-found exactly when no row
(active or archived) with the requested id exists, and in that case it
performs no mutation; restoring an active row succeeds, resets
`completed` to false and appends a `restored` event. -/
theorem c6_amended (s : DbState) (rid : Nat) (hid : rid ≠ 0) :
    ((restoreRoute rid s).2 = Resp.notFound ↔ ∀ r ∈ s.rows, r.id ≠ rid) ∧
    ((restoreRoute rid s).2 = Resp.notFound → (restoreRoute rid s).1 = s) := by
  by_cases hzero : (s.rows.countP fun r => decide (r.id = rid)) = 0
  · have hall := List.countP_eq_zero.mp hzero
    have hrows : (s.rows.map fun r => if r.id = rid then restoreRow r else r) = s.rows := by
      rw [show s.rows.map (fun r => if r.id = rid then restoreRow r else r) =
          s.rows.map id from List.map_congr_left fun x hx => by
        have := hall x hx
        simp only [decide_eq_true_eq] at this
        simp [this], List.map_id]
    constructor
    · simp only [restoreRoute, if_neg hid, hzero, if_pos rfl]
      constructor
      · intro _ r hr
        have := hall r hr
        simpa using this
      · intro _; rfl
    · intro _
      simp [restoreRoute, hid, hzero, hrows]
  · have hex : ∃ r ∈ s.rows, r.id = rid := by
      obtain ⟨r, hr, hp⟩ := List.countP_pos_iff.mp (Nat.pos_of_ne_zero hzero)
      exact ⟨r, hr, by simpa using hp⟩
    rw [restoreRoute_found hid hex]
    constructor
    · constructor
      · intro h; cases h
      · intro hall
        obtain ⟨r, hr, hp⟩ := hex
        exact absurd hp (hall r hr)
    · intro h; cases h

theorem c6_witness :
    ((restoreRoute 7 c6State).2 = Resp.notFound ↔ ∀ r ∈ c6State.rows, r.id ≠ 7) ∧
    ((restoreRoute 7 c6State).2 = Resp.notFound → (restoreRoute 7 c6State).1 = c6State) :=
  c6_amended c6State 7 (by decide)

/-! ### C7 -/

/-- C7 fails on the code: the manual route rejects only a missing or empty
`text` before trimming, so a whitespace-only title passes validation and a
row whose title trims to the empty string is inserted. -/
theorem c7_counterexample :
    jsTrim " " = "" ∧
    (manualRoute (some " ") none none "2024-01-01T00:00:00Z" emptyDb).2 = Resp.ok ∧
    (manualRoute (some " ") none none "2024-01-01T00:00:00Z" emptyDb).1.rows =
      [⟨1, none, .manual, "", none, none, none, some "2024-01-01T00:00:00Z", false,
        none, none⟩] := by
  decide

/-- C7 amended: the manual insert fails validation exactly when `text` is
missing or the empty string (before trimming), and then performs no
mutation; otherwise a row with the trimmed title — possibly empty — is
inserted. -/
theorem c7_amended (text : Option String) (due sched : Option String) (now : String)
    (s : DbState) :
    ((manualRoute text due sched now s).2 = Resp.invalid ↔
      (text = none ∨ text = some "")) ∧
    ((manualRoute text due sched now s).2 = Resp.invalid →
      (manualRoute text due sched now s).1 = s) := by
  match text with
  | none => exact ⟨by simp [manualRoute], fun _ => rfl⟩
  | some t =>
    by_cases ht : t = ""
    · subst ht
      exact ⟨by simp [manualRoute], fun _ => rfl⟩
    · refine ⟨?_, ?_⟩
      · simp only [manualRoute, if_neg ht]
        constructor
        · intro h; cases h
        · rintro (h | h)
          · cases h
          · exact absurd (by injection h) ht
      · simp only [manualRoute, if_neg ht]
        intro h; cases h

/-! ### C8 -/

theorem charListLt_asymm {a b : List Char} (h : charListLt a b = true) :
    charListLt b a = false := by
  cases h' : charListLt b a with
  | false => rfl
  | true =>
    have := charListLt_trans a b a h h'
    rw [charListLt_irrefl] at this
    cases this

theorem optLE_of_optLT {x y : Option String} (h : optLT x y) : optLE x y := by
  cases x with
  | none => trivial
  | some a =>
    cases y with
    | none => cases h
    | some b =>
      show charListLe a.data b.data = true
      rw [charListLe_eq_not_lt, charListLt_asymm h]
      rfl

theorem claimOrd_of_rowLE {a b : PlannerRow} (h : rowLE a b) : claimOrd a b := by
  unfold rowLE at h
  cases hda : a.due_at with
  | none =>
    cases hdb : b.due_at with
    | none =>
      simp only [claimOrd, hda, hdb]
      simp [keyDue, keyCo, hda, hdb] at h
      rcases h with h | ⟨_, h₂⟩
      · exact optLE_of_optLT h
      · exact h₂
    | some db =>
      simp [keyDue, hda, hdb] at h
  | some da =>
    cases hdb : b.due_at with
    | none => simp only [claimOrd, hda, hdb]
    | some db =>
      simp only [claimOrd, hda, hdb]
      simp [keyDue, keyCo, hda, hdb] at h
      rcases h with h | ⟨h₁, h₂⟩
      · exact .inl h
      · exact .inr ⟨h₁, h₂⟩

/-- C8: for every store state the active projection is ordered as the spec
describes — items without `due_at` after all items with `due_at`, items
with `due_at` ascending by `due_at` with ties broken by ascending
`created_at`, and items without `due_at` ascending by `created_at` among
themselves; in particular, for `A(due_at=T1)`, `B(due_at=null,
created_at=T0)`, `C(due_at=T2)` with `T1 < T2` the active list is
`[A, C, B]`. -/
theorem c8_active_ordering (s : DbState) :
    (activeRows s).Pairwise claimOrd ∧
    activeRows exOrderState = [exRowA, exRowC, exRowB] := by
  constructor
  · exact (List.sorted_insertionSort rowLE _).imp fun h => claimOrd_of_rowLE h
  · decide

/-! ### C10 -/

theorem partition_filter_perm (l : List PlannerRow) :
    (l.filter (fun r => r.archived_reason.isNone) ++
      l.filter (fun r => decide (r.archived_reason = some ArchiveReason.completed)) ++
      l.filter (fun r => decide (r.archived_reason = some ArchiveReason.deleted))).Perm l := by
  have e1 : (l.filter (fun r => !r.archived_reason.isNone)).filter
      (fun r => decide (r.archived_reason = some ArchiveReason.completed)) =
      l.filter (fun r => decide (r.archived_reason = some ArchiveReason.completed)) := by
    rw [List.filter_filter]
    refine List.filter_congr fun a _ => ?_
    match ha : a.archived_reason with
    | none => simp [ha]
    | some ArchiveReason.completed => simp [ha]
    | some ArchiveReason.deleted => simp [ha]
  have e2 : (l.filter (fun r => !r.archived_reason.isNone)).filter
      (fun r => !decide (r.archived_reason = some ArchiveReason.completed)) =
      l.filter (fun r => decide (r.archived_reason = some ArchiveReason.deleted)) := by
    rw [List.filter_filter]
    refine List.filter_congr fun a _ => ?_
    match ha : a.archived_reason with
    | none => simp [ha]
    | some ArchiveReason.completed => simp [ha]
    | some ArchiveReason.deleted => simp [ha]
  have h2 := List.filter_append_perm
    (fun r => decide (r.archived_reason = some ArchiveReason.completed))
    (l.filter (fun r => !r.archived_reason.isNone))
  rw [e1, e2] at h2
  have h1 := List.filter_append_perm (fun r => r.archived_reason.isNone) l
  rw [List.append_assoc]
  exact (h2.append_left _).trans h1

theorem activeRows_perm (s : DbState) :
    (activeRows s).Perm (s.rows.filter fun r => r.archived_reason.isNone) :=
  List.perm_insertionSort rowLE _

theorem archivedRows_perm (reason : ArchiveReason) (s : DbState) :
    (archivedRows reason s).Perm
      (s.rows.filter fun r => decide (r.archived_reason = some reason)) :=
  List.perm_insertionSort archLE _

/-- C10: the projection partitions the item rows — the three projected
lists together are a permutation of the table, items in the active list
have `archived_reason` null, items in the completed/deleted buckets have
the matching `archived_reason`, and (ids being unique by the schema) no
row appears twice across the three lists. -/
theorem c10_projection_partition (s : DbState) (hwf : WF s) :
    (activeRows s ++ archivedRows .completed s ++ archivedRows .deleted s).Perm s.rows ∧
    (∀ i ∈ (getPlannerState s).active, i.archived_reason = none) ∧
    (∀ i ∈ (getPlannerState s).archiveCompleted,
      i.archived_reason = some ArchiveReason.completed) ∧
    (∀ i ∈ (getPlannerState s).archiveDeleted,
      i.archived_reason = some ArchiveReason.deleted) ∧
    ((activeRows s ++ archivedRows .completed s ++ archivedRows .deleted s).map
      PlannerRow.id).Nodup := by
  have hperm : (activeRows s ++ archivedRows .completed s ++ archivedRows .deleted s).Perm
      s.rows :=
    (((activeRows_perm s).append (archivedRows_perm .completed s)).append
      (archivedRows_perm .deleted s)).trans (partition_filter_perm s.rows)
  refine ⟨hperm, ?_, ?_, ?_, ?_⟩
  · intro i hi
    simp only [getPlannerState, getActiveTodos, List.mem_map] at hi
    obtain ⟨r, hr, rfl⟩ := hi
    have := (List.mem_filter.mp ((List.mem_insertionSort rowLE).mp hr)).2
    simpa [mapRowToTodo, Option.isNone_iff_eq_none] using this
  · intro i hi
    simp only [getPlannerState, getArchivedByReason, List.mem_map] at hi
    obtain ⟨r, hr, rfl⟩ := hi
    have := (List.mem_filter.mp ((List.mem_insertionSort archLE).mp hr)).2
    simpa [mapRowToTodo] using this
  · intro i hi
    simp only [getPlannerState, getArchivedByReason, List.mem_map] at hi
    obtain ⟨r, hr, rfl⟩ := hi
    have := (List.mem_filter.mp ((List.mem_insertionSort archLE).mp hr)).2
    simpa [mapRowToTodo] using this
  · exact ((hperm.map PlannerRow.id).nodup_iff).mpr hwf.2.2.2.1

theorem c10_witness :
    WF c10State ∧
    ((activeRows c10State ++ archivedRows .completed c10State ++
        archivedRows .deleted c10State).Perm c10State.rows ∧
    (∀ i ∈ (getPlannerState c10State).active, i.archived_reason = none) ∧
    (∀ i ∈ (getPlannerState c10State).archiveCompleted,
      i.archived_reason = some ArchiveReason.completed) ∧
    (∀ i ∈ (getPlannerState c10State).archiveDeleted,
      i.archived_reason = some ArchiveReason.deleted) ∧
    ((activeRows c10State ++ archivedRows .completed c10State ++
        archivedRows .deleted c10State).map PlannerRow.id).Nodup) :=
  ⟨by decide, c10_projection_partition c10State (by decide)⟩

/-! ### C9 -/

theorem completionInv_archiveRow (reason : ArchiveReason) (t : String) (x : PlannerRow) :
    completionInv (archiveRow reason t x) := by
  cases reason <;> constructor <;> simp [completionInv, archiveRow]

theorem completionInv_restoreRow (x : PlannerRow) : completionInv (restoreRow x) := by
  constructor <;> simp [restoreRow]

theorem completionInv_updRow (title : String) (due sched : Option String) (cAt : String)
    (x : PlannerRow) (h : completionInv x) :
    completionInv (updRow title due sched cAt x) := by
  simpa [completionInv, updRow] using h

theorem completionInv_mkCanvasRow (newId e : Nat) (title : String) (due sched : Option String)
    (cAt : String) : completionInv (mkCanvasRow newId e title due sched cAt) := by
  constructor <;> simp [mkCanvasRow]

theorem archiveRoute_rows {s : DbState} {rid : Nat} {reason : ArchiveReason} {t : String}
    (hid : rid ≠ 0) :
    (archiveRoute rid reason t s).1.rows =
      s.rows.map fun r => if r.id = rid then archiveRow reason t r else r := by
  simp only [archiveRoute, if_neg hid]
  by_cases hzero : (s.rows.countP fun r => decide (r.id = rid)) = 0 <;> simp [hzero]

theorem restoreRoute_rows {s : DbState} {rid : Nat} (hid : rid ≠ 0) :
    (restoreRoute rid s).1.rows =
      s.rows.map fun r => if r.id = rid then restoreRow r else r := by
  simp only [restoreRoute, if_neg hid]
  by_cases hzero : (s.rows.countP fun r => decide (r.id = rid)) = 0 <;> simp [hzero]

theorem completionInv_step (derive : String → Option String) (now : String)
    (td : CanvasTodo) {s : DbState} (h : ∀ r ∈ s.rows, completionInv r) :
    ∀ r ∈ (stepTodo derive now s td).rows, completionInv r := by
  obtain ⟨oa⟩ := td
  cases oa with
  | none => exact h
  | some a =>
    by_cases hl : a.locked_for_user
    · simpa [stepTodo, hl] using h
    · cases hfind : findCanvas s a.id with
      | none =>
        simp only [stepTodo, hl, if_neg, hfind]
        intro r hr
        rcases List.mem_append.mp hr with hr | hr
        · exact h r hr
        · rw [List.mem_singleton.mp hr]
          exact completionInv_mkCanvasRow _ _ _ _ _ _
      | some r0 =>
        by_cases harch : r0.archived_reason.isSome
        · simpa [stepTodo, hl, hfind, harch] using h
        · simp only [stepTodo, hl, if_neg, hfind, harch, updateCanvasItem]
          intro r hr
          obtain ⟨x, hx, rfl⟩ := List.mem_map.mp hr
          by_cases hxid : x.id = r0.id
          · simpa [hxid] using completionInv_updRow _ _ _ _ x (h x hx)
          · simpa [hxid] using h x hx

theorem completionInv_sync (derive : String → Option String) (now : String)
    (batch : List CanvasTodo) {s : DbState} (h : ∀ r ∈ s.rows, completionInv r) :
    ∀ r ∈ (syncCanvasAssignments derive now batch s).rows, completionInv r := by
  induction batch generalizing s with
  | nil => exact h
  | cons td rest ih => exact ih (completionInv_step derive now td h)

/-- C9 fails on the code: archiving an already-completed item again with
reason `deleted` keeps `completed = true` while setting `archived_reason`
to `deleted`, so the claimed biconditional is violated in a state
reachable through insert/archive operations alone. -/
theorem c9_counterexample :
    Reachable c9BadState ∧
    ∃ r ∈ c9BadState.rows, r.completed = true ∧
      r.archived_reason ≠ some ArchiveReason.completed := by
  constructor
  · exact Reachable.archive 1 .deleted "2024-01-03T00:00:00Z"
      (Reachable.archive 1 .completed "2024-01-02T00:00:00Z"
        (Reachable.manual (some "task") none none "2024-01-01T00:00:00Z" Reachable.empty))
  · decide

/-- C9 amended: in every reachable state, a row with
`archived_reason = completed` is marked completed, and a completed mark
implies the row is archived (`archived_reason` is not null) — but not
necessarily with reason `completed`; no row is marked completed while
active. -/
theorem c9_amended (s : DbState) (hs : Reachable s) :
    ∀ r ∈ s.rows, (r.archived_reason = some ArchiveReason.completed → r.completed = true) ∧
      (r.completed = true → r.archived_reason ≠ none) := by
  induction hs with
  | empty => intro r hr; cases hr
  | manual text due sched now _ ih =>
    match text with
    | none => exact ih
    | some t =>
      by_cases ht : t = ""
      · simpa [manualRoute, ht] using ih
      · simp only [manualRoute, if_neg ht]
        intro r hr
        rcases List.mem_append.mp hr with hr | hr
        · exact ih r hr
        · rw [List.mem_singleton.mp hr]
          constructor <;> simp
  | syncPass derive now batch _ ih => exact completionInv_sync derive now batch ih
  | archive rid reason t _ ih =>
    by_cases hid : rid = 0
    · simpa [archiveRoute, hid] using ih
    · rw [archiveRoute_rows hid]
      intro r hr
      obtain ⟨x, hx, rfl⟩ := List.mem_map.mp hr
      by_cases hxid : x.id = rid
      · simpa [completionInv, hxid] using completionInv_archiveRow reason t x
      · simpa [hxid] using ih x hx
  | restore rid _ ih =>
    by_cases hid : rid = 0
    · simpa [restoreRoute, hid] using ih
    · rw [restoreRoute_rows hid]
      intro r hr
      obtain ⟨x, hx, rfl⟩ := List.mem_map.mp hr
      by_cases hxid : x.id = rid
      · simpa [completionInv, hxid] using completionInv_restoreRow x
      · simpa [hxid] using ih x hx
  | @purge s0 rid _ ih =>
    by_cases hid : rid = 0
    · simpa [deleteRoute, hid] using ih
    · by_cases hzero : (s0.rows.countP fun r => decide (r.id = rid)) = 0
      · simpa [deleteRoute, hid, hzero] using ih
      · simp only [deleteRoute, if_neg hid, hzero, if_neg, ite_false]
        intro r hr
        exact ih r (List.mem_of_mem_filter hr)

theorem c9_witness :
    (c9Row.archived_reason = some ArchiveReason.completed → c9Row.completed = true) ∧
    (c9Row.completed = true → c9Row.archived_reason ≠ none) :=
  c9_amended c9BadState
    (Reachable.archive 1 .deleted "2024-01-03T00:00:00Z"
      (Reachable.archive 1 .completed "2024-01-02T00:00:00Z"
        (Reachable.manual (some "task") none none "2024-01-01T00:00:00Z" Reachable.empty)))
    c9Row (by decide)

/-! ### C1 -/

theorem find?_mem_and_pred {p : PlannerRow → Bool} {l : List PlannerRow} {r : PlannerRow}
    (h : l.find? p = some r) : r ∈ l ∧ p r = true :=
  ⟨List.mem_of_find?_eq_some h, List.find?_some h⟩

theorem extUnique_symm : Symmetric (fun a b : PlannerRow =>
    a.origin = TodoOrigin.canvas → b.origin = TodoOrigin.canvas →
      a.external_id ≠ none → a.external_id ≠ b.external_id) := by
  intro a b hab hb ha hbe
  by_cases hae : a.external_id = none
  · exact fun h => hbe (h.trans hae)
  · exact fun h => (hab ha hb hae) h.symm

/-- Under the schema's uniqueness facts, the canvas lookup for a canvas
row's `external_id` returns exactly that row. -/
theorem findCanvas_unique {s : DbState} (hwf : WF s) {r : PlannerRow} (hr : r ∈ s.rows)
    {e : Nat} (hext : r.external_id = some e) (horig : r.origin = TodoOrigin.canvas) :
    findCanvas s e = some r := by
  cases hfind : findCanvas s e with
  | none =>
    have := List.find?_eq_none.mp hfind r hr
    simp [canvasPred, horig, hext] at this
  | some r' =>
    obtain ⟨hr', hp⟩ := find?_mem_and_pred hfind
    simp only [canvasPred, decide_eq_true_eq] at hp
    by_cases heq : r' = r
    · rw [heq]
    · exfalso
      have hrel := List.Pairwise.forall extUnique_symm hwf.2.2.2.2.2.2 hr' hr heq
    
      exact (hrel hp.1 horig (by rw [hp.2]; exact fun hc => Option.noConfusion hc))
        (hp.2.trans hext.symm)

/-- C1: for every schema-conforming store state, processing a sync
candidate whose `external_id` matches an archived row leaves the store
completely unchanged — no insert, no update, `archived_at`,
`archived_reason` and `completed` untouched — and the archived row does
not appear in the active list afterwards. -/
theorem c1_no_resurrection (s : DbState) (hwf : WF s) (r : PlannerRow) (hr : r ∈ s.rows)
    (harch : r.archived_reason ≠ none) (a : CanvasAssignment)
    (hext : r.external_id = some a.id)
    (derive : String → Option String) (now : String) :
    stepTodo derive now s ⟨some a⟩ = s ∧
    r ∉ activeRows (stepTodo derive now s ⟨some a⟩) := by
  have horig : r.origin = TodoOrigin.canvas := by
    cases ho : r.origin with
    | canvas => rfl
    | manual =>
      exact absurd (hwf.2.2.2.2.2.1 r hr ho)
        (by rw [hext]; exact fun h => Option.noConfusion h)
  have hfind : findCanvas s a.id = some r := findCanvas_unique hwf hr hext horig
  have hsome : r.archived_reason.isSome = true := Option.ne_none_iff_isSome.mp harch
  have hstep : stepTodo derive now s ⟨some a⟩ = s := by
    by_cases hl : a.locked_for_user
    · simp [stepTodo, hl]
    · simp [stepTodo, hl, hfind, hsome]
  refine ⟨hstep, ?_⟩
  rw [hstep]
  intro hmem
  have hnone := (List.mem_filter.mp ((List.mem_insertionSort rowLE).mp hmem)).2
  exact harch (by simpa using hnone)

theorem c1_witness :
    WF c1State ∧ c1Row ∈ c1State.rows ∧ c1Row.archived_reason ≠ none ∧
    c1Row.external_id = some c1Asg.id ∧
    (stepTodo (fun _ => none) "2024-06-01T00:00:00Z" c1State ⟨some c1Asg⟩ = c1State ∧
      c1Row ∉ activeRows (stepTodo (fun _ => none) "2024-06-01T00:00:00Z" c1State
        ⟨some c1Asg⟩)) :=
  ⟨by decide, by decide, by decide, by decide,
    c1_no_resurrection c1State (by decide) c1Row (by decide) (by decide) c1Asg (by decide)
      (fun _ => none) "2024-06-01T00:00:00Z"⟩

/-! ### C2: list helpers -/

theorem find?_map_pred {g : PlannerRow → PlannerRow} {p : PlannerRow → Bool}
    (hp : ∀ x, p (g x) = p x) (l : List PlannerRow) :
    List.find? p (l.map g) = (List.find? p l).map g := by
  induction l with
  | nil => rfl
  | cons x t ih =>
    cases hpa : p x with
    | true => simp [List.find?_cons, hp x, hpa]
    | false => simp [List.find?_cons, hp x, hpa, ih]

theorem find?_forall₂ {R : PlannerRow → PlannerRow → Prop} {p : PlannerRow → Bool}
    (hAgree : ∀ x y, R x y → p x = p y) :
    ∀ {l l' : List PlannerRow}, List.Forall₂ R l l' →
      (List.find? p l = none ∧ List.find? p l' = none) ∨
      ∃ x y, List.find? p l = some x ∧ List.find? p l' = some y ∧ R x y ∧ x ∈ l ∧ y ∈ l' := by
  intro l l' h
  induction h with
  | nil => exact .inl ⟨rfl, rfl⟩
  | @cons a b l₁ l₂ h₁ h₂ ih =>
    cases hpa : p a with
    | true =>
      have hpb : p b = true := (hAgree a b h₁) ▸ hpa
      exact .inr ⟨a, b, by simp [List.find?_cons, hpa], by simp [List.find?_cons, hpb], h₁,
        List.mem_cons_self a l₁, List.mem_cons_self b l₂⟩
    | false =>
      have hpb : p b = false := (hAgree a b h₁) ▸ hpa
      rcases ih with ⟨h₃, h₄⟩ | ⟨x, y, hx, hy, hR, hxm, hym⟩
      · exact .inl ⟨by simp [List.find?_cons, hpa, h₃], by simp [List.find?_cons, hpb, h₄]⟩
      · exact .inr ⟨x, y, by simp [List.find?_cons, hpa, hx], by simp [List.find?_cons, hpb, hy],
          hR, List.mem_cons_of_mem a hxm, List.mem_cons_of_mem b hym⟩

theorem forall₂_map_strong {R S : PlannerRow → PlannerRow → Prop}
    {g h : PlannerRow → PlannerRow} :
    ∀ {l l' : List PlannerRow}, List.Forall₂ R l l' →
      (∀ u v, u ∈ l → v ∈ l' → R u v → S (g u) (h v)) →
      List.Forall₂ S (l.map g) (l'.map h) := by
  intro l l' hf
  induction hf with
  | nil => exact fun _ => .nil
  | @cons a b l₁ l₂ h₁ h₂ ih =>
    intro hS
    exact .cons (hS _ _ (List.mem_cons_self a l₁) (List.mem_cons_self b l₂) h₁)
      (ih fun u v hu hv hr => hS u v (List.mem_cons_of_mem a hu) (List.mem_cons_of_mem b hv) hr)

theorem forall₂_imp_mem {R S : PlannerRow → PlannerRow → Prop} :
    ∀ {l l' : List PlannerRow}, List.Forall₂ R l l' →
      (∀ u v, u ∈ l → v ∈ l' → R u v → S u v) → List.Forall₂ S l l' := by
  intro l l' hf
  induction hf with
  | nil => exact fun _ => .nil
  | @cons a b l₁ l₂ h₁ h₂ ih =>
    intro hS
    exact .cons (hS _ _ (List.mem_cons_self a l₁) (List.mem_cons_self b l₂) h₁)
      (ih fun u v hu hv hr => hS u v (List.mem_cons_of_mem a hu) (List.mem_cons_of_mem b hv) hr)

theorem forall₂_rows_eq {l l' : List PlannerRow} (h : List.Forall₂ (fun y z => y = z) l l') :
    l = l' := by
  induction h with
  | nil => rfl
  | cons h₁ _ ih => rw [h₁, ih]

/-! ### C2: schema invariant preservation -/

theorem id_unique {s : DbState} (hwf : WF s) {x y : PlannerRow} (hx : x ∈ s.rows)
    (hy : y ∈ s.rows) (h : x.id = y.id) : x = y := by
  by_contra hne
  have hpw : s.rows.Pairwise (fun a b : PlannerRow => a.id ≠ b.id) :=
    List.pairwise_map.mp hwf.2.2.2.1
  have hsymm : Symmetric (fun a b : PlannerRow => a.id ≠ b.id) := by
    intro a b hab hb
    exact hab hb.symm
  exact List.Pairwise.forall hsymm hpw hx hy hne h

theorem updGuard_id (rid : Nat) (title : String) (due sched : Option String)
    (cAt : String) (x : PlannerRow) :
    (if x.id = rid then updRow title due sched cAt x else x).id = x.id := by
  by_cases hx : x.id = rid <;> simp [updRow, hx]

theorem updGuard_origin (rid : Nat) (title : String) (due sched : Option String)
    (cAt : String) (x : PlannerRow) :
    (if x.id = rid then updRow title due sched cAt x else x).origin = x.origin := by
  by_cases hx : x.id = rid <;> simp [updRow, hx]

theorem updGuard_ext (rid : Nat) (title : String) (due sched : Option String)
    (cAt : String) (x : PlannerRow) :
    (if x.id = rid then updRow title due sched cAt x else x).external_id = x.external_id := by
  by_cases hx : x.id = rid <;> simp [updRow, hx]

theorem updGuard_archived (rid : Nat) (title : String) (due sched : Option String)
    (cAt : String) (x : PlannerRow) :
    (if x.id = rid then updRow title due sched cAt x else x).archived_reason =
      x.archived_reason := by
  by_cases hx : x.id = rid <;> simp [updRow, hx]

theorem updGuard_created (rid : Nat) (title : String) (due sched : Option String)
    (cAt : String) (x : PlannerRow) (h : x.created_at ≠ none) :
    (if x.id = rid then updRow title due sched cAt x else x).created_at ≠ none := by
  by_cases hx : x.id = rid <;> simp [updRow, hx]
  exact h

theorem WF_updateCanvasItem {s : DbState} (hwf : WF s) (rid : Nat) (T : String)
    (D SC : Option String) (CA : String) : WF (updateCanvasItem rid T D SC CA s) := by
  obtain ⟨h1, h2, h3, h4, h5, h6, h7⟩ := hwf
  refine ⟨h1, ?_, ?_, ?_, ?_, ?_, ?_⟩
  · intro r hr
    obtain ⟨x, hx, rfl⟩ := List.mem_map.mp hr
    rw [updGuard_id]
    exact h2 x hx
  · intro r hr
    obtain ⟨x, hx, rfl⟩ := List.mem_map.mp hr
    rw [updGuard_id]
    exact h3 x hx
  · have hids : (updateCanvasItem rid T D SC CA s).rows.map PlannerRow.id =
        s.rows.map PlannerRow.id := by
      simp only [updateCanvasItem, List.map_map]
      exact List.map_congr_left fun x _ => updGuard_id rid T D SC CA x
    rw [hids]
    exact h4
  · intro r hr
    obtain ⟨x, hx, rfl⟩ := List.mem_map.mp hr
    exact updGuard_created rid T D SC CA x (h5 x hx)
  · intro r hr
    obtain ⟨x, hx, rfl⟩ := List.mem_map.mp hr
    rw [updGuard_origin, updGuard_ext]
    exact h6 x hx
  · simp only [updateCanvasItem]
    rw [List.pairwise_map]
    refine h7.imp ?_
    intro a b hab
    rw [updGuard_origin, updGuard_origin, updGuard_ext, updGuard_ext]
    exact hab

theorem WF_appendCanvas {s : DbState} (hwf : WF s) {e : Nat}
    (hnone : findCanvas s e = none) (T : String) (D SC : Option String) (CA : String) :
    WF ⟨s.rows ++ [mkCanvasRow s.nextId e T D SC CA], s.nextId + 1, s.events⟩ := by
  obtain ⟨h1, h2, h3, h4, h5, h6, h7⟩ := hwf
  have hnotin := List.find?_eq_none.mp hnone
  refine ⟨?_, ?_, ?_, ?_, ?_, ?_, ?_⟩
  · exact Nat.succ_pos s.nextId
  · intro r hr
    rcases List.mem_append.mp hr with hr | hr
    · exact h2 r hr
    · rw [List.mem_singleton.mp hr]
      simpa [mkCanvasRow] using h1
  · intro r hr
    rcases List.mem_append.mp hr with hr | hr
    · exact Nat.lt_succ_of_lt (h3 r hr)
    · rw [List.mem_singleton.mp hr]
      simp [mkCanvasRow]
  · rw [List.map_append, List.nodup_append]
    refine ⟨h4, by simp, ?_⟩
    intro x hx hx'
    obtain ⟨r, hr, rfl⟩ := List.mem_map.mp hx
    have hlt := h3 r hr
    simp only [List.map_cons, List.map_nil, List.mem_singleton, mkCanvasRow] at hx'
    omega
  · intro r hr
    rcases List.mem_append.mp hr with hr | hr
    · exact h5 r hr
    · rw [List.mem_singleton.mp hr]
      simp [mkCanvasRow]
  · intro r hr
    rcases List.mem_append.mp hr with hr | hr
    · exact h6 r hr
    · rw [List.mem_singleton.mp hr]
      intro h
      simp [mkCanvasRow] at h
  · rw [List.pairwise_append]
    refine ⟨h7, List.pairwise_singleton _ _, ?_⟩
    intro x hx y hy
    rw [List.mem_singleton.mp hy]
    intro hxc _ hxe
    have hnp := hnotin x hx
    simp only [canvasPred, decide_eq_true_eq, not_and] at hnp
    simp only [mkCanvasRow]
    exact fun hcontra => (hnp hxc) hcontra

theorem WF_step {s : DbState} (hwf : WF s) (derive : String → Option String) (now : String)
    (td : CanvasTodo) : WF (stepTodo derive now s td) := by
  obtain ⟨oa⟩ := td
  cases oa with
  | none => exact hwf
  | some a =>
    by_cases hl : a.locked_for_user
    · simpa [stepTodo, hl] using hwf
    · cases hfind : findCanvas s a.id with
      | some r0 =>
        by_cases harch : r0.archived_reason.isSome
        · simpa [stepTodo, hl, hfind, harch] using hwf
        · simp only [stepTodo, hl, hfind, harch, Bool.false_eq_true, if_false]
          exact WF_updateCanvasItem hwf r0.id a.name (normStr a.due_at) _ _
      | none =>
        simp only [stepTodo, hl, hfind, Bool.false_eq_true, if_false]
        exact WF_appendCanvas hwf hfind a.name (normStr a.due_at) _ _

theorem WF_sync {s : DbState} (hwf : WF s) (derive : String → Option String) (now : String)
    (batch : List CanvasTodo) : WF (syncCanvasAssignments derive now batch s) := by
  induction batch generalizing s with
  | nil => exact hwf
  | cons td rest ih => exact ih (WF_step hwf derive now td)

/-! ### C2: the resolved-candidate path -/

theorem canvasPred_updGuard (e rid : Nat) (T : String) (D SC : Option String) (CA : String)
    (x : PlannerRow) :
    canvasPred e (if x.id = rid then updRow T D SC CA x else x) = canvasPred e x := by
  by_cases hx : x.id = rid <;> simp [canvasPred, updRow, hx]

theorem findCanvas_updateCanvasItem (e rid : Nat) (T : String) (D SC : Option String)
    (CA : String) (s : DbState) :
    findCanvas (updateCanvasItem rid T D SC CA s) e =
      (findCanvas s e).map (fun x => if x.id = rid then updRow T D SC CA x else x) :=
  find?_map_pred (canvasPred_updGuard e rid T D SC CA) s.rows

theorem step_resolves {s : DbState} (derive : String → Option String) (now : String)
    {a : CanvasAssignment} (hl : a.locked_for_user = false) :
    resolved derive a (stepTodo derive now s ⟨some a⟩) := by
  cases hfind : findCanvas s a.id with
  | some r0 =>
    by_cases harch : r0.archived_reason.isSome
    · have hstep : stepTodo derive now s ⟨some a⟩ = s := by
        simp [stepTodo, hl, hfind, harch]
      rw [hstep]
      exact ⟨r0, hfind, .inl (Option.ne_none_iff_isSome.mpr harch)⟩
    · have hstep : stepTodo derive now s ⟨some a⟩ =
          updateCanvasItem r0.id a.name (normStr a.due_at) (schedOf derive a.due_at)
            (match normStr a.created_at with | some c => c | none => now) s := by
        simp [stepTodo, hl, hfind, harch, schedOf]
      rw [hstep]
      refine ⟨updRow a.name (normStr a.due_at) (schedOf derive a.due_at)
        (match normStr a.created_at with | some c => c | none => now) r0, ?_, .inr ?_⟩
      · rw [findCanvas_updateCanvasItem, hfind]
        simp
      · refine ⟨?_, rfl, rfl, rfl, ?_⟩
        · simpa [updRow] using Option.not_isSome_iff_eq_none.mp harch
        · simp [updRow]
  | none =>
    have hstep : stepTodo derive now s ⟨some a⟩ =
        ⟨s.rows ++ [mkCanvasRow s.nextId a.id a.name (normStr a.due_at)
          (schedOf derive a.due_at)
          (match normStr a.created_at with | some c => c | none => now)],
         s.nextId + 1, s.events⟩ := by
      simp [stepTodo, hl, hfind, schedOf]
    rw [hstep]
    refine ⟨mkCanvasRow s.nextId a.id a.name (normStr a.due_at) (schedOf derive a.due_at)
      (match normStr a.created_at with | some c => c | none => now), ?_, .inr ?_⟩
    · show List.find? (canvasPred a.id) (s.rows ++ [mkCanvasRow _ _ _ _ _ _]) = _
      rw [List.find?_append]
      have : List.find? (canvasPred a.id) s.rows = none := hfind
      rw [this]
      simp [canvasPred, mkCanvasRow]
    · refine ⟨rfl, rfl, rfl, rfl, ?_⟩
      simp [mkCanvasRow]

theorem resolved_step_other {Y : DbState} (hwf : WF Y) {derive : String → Option String}
    {a : CanvasAssignment} (hres : resolved derive a Y) (now : String) (td : CanvasTodo)
    (hother : ∀ a', td.assignment = some a' → a'.locked_for_user = false → a'.id ≠ a.id) :
    resolved derive a (stepTodo derive now Y td) := by
  obtain ⟨oa⟩ := td
  cases oa with
  | none => exact hres
  | some a' =>
    by_cases hl : a'.locked_for_user
    · simpa [stepTodo, hl] using hres
    · have hne : a'.id ≠ a.id := hother a' rfl (Bool.not_eq_true _ ▸ hl)
      obtain ⟨ρ, hρfind, hρ⟩ := hres
      cases hfind : findCanvas Y a'.id with
      | none =>
        have hstep : stepTodo derive now Y ⟨some a'⟩ =
            ⟨Y.rows ++ [mkCanvasRow Y.nextId a'.id a'.name (normStr a'.due_at)
              (schedOf derive a'.due_at)
              (match normStr a'.created_at with | some c => c | none => now)],
             Y.nextId + 1, Y.events⟩ := by
          simp [stepTodo, hl, hfind, schedOf]
        rw [hstep]
        refine ⟨ρ, ?_, hρ⟩
        show List.find? (canvasPred a.id) (Y.rows ++ [mkCanvasRow _ _ _ _ _ _]) = _
        rw [List.find?_append]
        have : List.find? (canvasPred a.id) Y.rows = some ρ := hρfind
        rw [this]
        rfl
      | some r0' =>
        by_cases harch : r0'.archived_reason.isSome
        · have hstep : stepTodo derive now Y ⟨some a'⟩ = Y := by
            simp [stepTodo, hl, hfind, harch]
          rw [hstep]
          exact ⟨ρ, hρfind, hρ⟩
        · have hstep : stepTodo derive now Y ⟨some a'⟩ =
              updateCanvasItem r0'.id a'.name (normStr a'.due_at) (schedOf derive a'.due_at)
                (match normStr a'.created_at with | some c => c | none => now) Y := by
            simp [stepTodo, hl, hfind, harch, schedOf]
          rw [hstep]
          refine ⟨ρ, ?_, hρ⟩
          rw [findCanvas_updateCanvasItem, hρfind]
          have hidne : ¬ ρ.id = r0'.id := by
            intro he
            have heq := id_unique hwf (List.mem_of_find?_eq_some hρfind)
              (List.mem_of_find?_eq_some hfind) he
            have h1 := List.find?_some hρfind
            have h2 := List.find?_some hfind
            simp only [canvasPred, decide_eq_true_eq] at h1 h2
            rw [heq] at h1
            exact hne ((Option.some.injEq _ _).mp (h2.2.symm.trans h1.2))
          simp [hidne]

theorem resolved_sync_other {Y : DbState} {derive : String → Option String}
    {a : CanvasAssignment} (hwf : WF Y) (hres : resolved derive a Y) (now : String)
    (t : List CanvasTodo)
    (hother : ∀ td ∈ t, ∀ a', td.assignment = some a' → a'.locked_for_user = false →
      a'.id ≠ a.id) :
    resolved derive a (syncCanvasAssignments derive now t Y) := by
  induction t generalizing Y with
  | nil => exact hres
  | cons td rest ih =>
    exact ih (WF_step hwf derive now td)
      (resolved_step_other hwf hres now td (hother td (List.mem_cons_self td rest)))
      (fun td' h' => hother td' (List.mem_cons_of_mem td h'))

theorem step_of_resolved {Y : DbState} (hwf : WF Y) {derive : String → Option String}
    {a : CanvasAssignment} (hres : resolved derive a Y) (now : String) :
    stepTodo derive now Y ⟨some a⟩ = Y := by
  by_cases hl : a.locked_for_user
  · simp [stepTodo, hl]
  · obtain ⟨ρ, hρfind, hρ⟩ := hres
    rcases hρ with harch | ⟨hact, htitle, hdue, hsched, hcre⟩
    · have hs : ρ.archived_reason.isSome := Option.ne_none_iff_isSome.mp harch
      simp [stepTodo, hl, hρfind, hs]
    · have harch : ρ.archived_reason.isSome = false := by simp [hact]
      have hstep : stepTodo derive now Y ⟨some a⟩ =
          updateCanvasItem ρ.id a.name (normStr a.due_at) (schedOf derive a.due_at)
            (match normStr a.created_at with | some c => c | none => now) Y := by
        simp [stepTodo, hl, hρfind, harch, schedOf]
      rw [hstep]
      have hρmem := List.mem_of_find?_eq_some hρfind
      obtain ⟨c, hc⟩ := Option.ne_none_iff_exists'.mp hcre
      have hrows : Y.rows.map (fun x => if x.id = ρ.id then
          updRow a.name (normStr a.due_at) (schedOf derive a.due_at)
            (match normStr a.created_at with | some cc => cc | none => now) x else x) =
          Y.rows := by
      
        have hcongr : ∀ x ∈ Y.rows, (if x.id = ρ.id then
            updRow a.name (normStr a.due_at) (schedOf derive a.due_at)
              (match normStr a.created_at with | some cc => cc | none => now) x else x) =
            id x := by
          intro x hx
          by_cases hxid : x.id = ρ.id
          · have hxρ : x = ρ := id_unique hwf hx hρmem hxid
            subst hxρ
            simp only [hxid, if_true, id_eq, updRow, hc]
            rw [← htitle, ← hdue, ← hsched, ← hc]
          · simp [hxid]
        rw [List.map_congr_left hcongr, List.map_id]
      simp only [updateCanvasItem, hrows]

/-! ### C2: the shared-external-id path -/

theorem forall₂_append_rel {R : PlannerRow → PlannerRow → Prop}
    {l₁ l₂ l₃ l₄ : List PlannerRow} (h₁ : List.Forall₂ R l₁ l₂) (h₂ : List.Forall₂ R l₃ l₄) :
    List.Forall₂ R (l₁ ++ l₃) (l₂ ++ l₄) := by
  induction h₁ with
  | nil => exact h₂
  | cons h _ ih => exact .cons h ih

theorem ext_unique {s : DbState} (hwf : WF s) {x y : PlannerRow} (hx : x ∈ s.rows)
    (hy : y ∈ s.rows) (hxc : x.origin = TodoOrigin.canvas) (hyc : y.origin = TodoOrigin.canvas)
    {e : Nat} (hxe : x.external_id = some e) (hye : y.external_id = some e) : x = y := by
  by_contra hne
  have h := List.Pairwise.forall extUnique_symm hwf.2.2.2.2.2.2 hx hy hne
  exact (h hxc hyc (by rw [hxe]; exact fun hc => Option.noConfusion hc))
    (hxe.trans hye.symm)

theorem rowRelT_fields {t : List CanvasTodo} {y z : PlannerRow} (h : rowRelT t y z) :
    y.id = z.id ∧ y.origin = z.origin ∧ y.external_id = z.external_id ∧
    y.notes = z.notes ∧ y.created_at = z.created_at ∧ y.completed = z.completed ∧
    y.archived_at = z.archived_at ∧ y.archived_reason = z.archived_reason := by
  rcases h with rfl | ⟨h1, h2, h3, h4, h5, h6, h7, h8, _⟩
  · exact ⟨rfl, rfl, rfl, rfl, rfl, rfl, rfl, rfl⟩
  · exact ⟨h1, h2, h3, h4, h5, h6, h7, h8⟩

theorem canvasPred_agree_rowRelT {t : List CanvasTodo} (e : Nat) :
    ∀ y z, rowRelT t y z → canvasPred e y = canvasPred e z := by
  intro y z h
  obtain ⟨_, h2, h3, _⟩ := rowRelT_fields h
  simp [canvasPred, h2, h3]

theorem rowRelT_transfer {c : CanvasTodo} {t' : List CanvasTodo} {u v : PlannerRow}
    (h : rowRelT (c :: t') u v)
    (hnc : ∀ a', c.assignment = some a' → a'.locked_for_user = false →
      u.origin = TodoOrigin.canvas → u.archived_reason = none →
      u.external_id ≠ some a'.id) :
    rowRelT t' u v := by
  rcases h with rfl | ⟨h1, h2, h3, h4, h5, h6, h7, h8, h9, h10, h11, e, hue, hwit⟩
  · exact .inl rfl
  · obtain ⟨td, htd, a'', hass, hlock, hid⟩ := hwit
    rcases List.mem_cons.mp htd with rfl | htd'
    · exact absurd (by rw [hue, hid]) (hnc a'' hass hlock h9 h10)
    · exact .inr ⟨h1, h2, h3, h4, h5, h6, h7, h8, h9, h10, h11, e, hue, td, htd', a'', hass,
        hlock, hid⟩

theorem RelT_sync (derive : String → Option String) (now : String) :
    ∀ (t : List CanvasTodo) (Y Z : DbState), WF Y → WF Z → RelT t Y Z →
      syncCanvasAssignments derive now t Y = syncCanvasAssignments derive now t Z := by
  intro t
  induction t with
  | nil =>
    intro Y Z _ _ hrel
    obtain ⟨hn, he, hf⟩ := hrel
    have hrows : Y.rows = Z.rows := by
      apply forall₂_rows_eq
      apply forall₂_imp_mem hf
      intro u v _ _ h
      rcases h with rfl | ⟨_, _, _, _, _, _, _, _, _, _, _, e, _, td, htd, _⟩
      · rfl
      · exact absurd htd (List.not_mem_nil td)
    show Y = Z
    cases Y with
    | mk yr yn ye =>
      cases Z with
      | mk zr zn ze =>
        have h1 : yr = zr := hrows
        have h2 : yn = zn := hn
        have h3 : ye = ze := he
        rw [h1, h2, h3]
  | cons c t' ih =>
    intro Y Z hwfY hwfZ hrel
    obtain ⟨hn, he, hf⟩ := hrel
    show syncCanvasAssignments derive now t' (stepTodo derive now Y c) =
      syncCanvasAssignments derive now t' (stepTodo derive now Z c)
    obtain ⟨oa⟩ := c
    cases oa with
    | none =>
      rw [show stepTodo derive now Y ⟨none⟩ = Y from rfl,
        show stepTodo derive now Z ⟨none⟩ = Z from rfl]
      apply ih Y Z hwfY hwfZ
      refine ⟨hn, he, forall₂_imp_mem hf ?_⟩
      intro u v _ _ h
      exact rowRelT_transfer h (fun a' hass _ _ _ => Option.noConfusion hass)
    | some a' =>
      by_cases hl : a'.locked_for_user
      · have e1 : stepTodo derive now Y ⟨some a'⟩ = Y := by simp [stepTodo, hl]
        have e2 : stepTodo derive now Z ⟨some a'⟩ = Z := by simp [stepTodo, hl]
        rw [e1, e2]
        apply ih Y Z hwfY hwfZ
        refine ⟨hn, he, forall₂_imp_mem hf ?_⟩
        intro u v _ _ h
        refine rowRelT_transfer h ?_
        intro a'' hass hlock _ _
        injection hass with hh
        rw [← hh] at hlock
        rw [hlock] at hl
        exact Bool.noConfusion hl
      · rcases find?_forall₂ (canvasPred_agree_rowRelT a'.id) hf with
          ⟨hfy, hfz⟩ | ⟨x, z, hfy, hfz, hxz, hxmem, hzmem⟩
        · have hfy' : findCanvas Y a'.id = none := hfy
          have hfz' : findCanvas Z a'.id = none := hfz
          have e1 : stepTodo derive now Y ⟨some a'⟩ =
              ⟨Y.rows ++ [mkCanvasRow Y.nextId a'.id a'.name (normStr a'.due_at)
                (schedOf derive a'.due_at)
                (match normStr a'.created_at with | some cc => cc | none => now)],
               Y.nextId + 1, Y.events⟩ := by
            simp [stepTodo, hl, hfy', schedOf]
          have e2 : stepTodo derive now Z ⟨some a'⟩ =
              ⟨Z.rows ++ [mkCanvasRow Z.nextId a'.id a'.name (normStr a'.due_at)
                (schedOf derive a'.due_at)
                (match normStr a'.created_at with | some cc => cc | none => now)],
               Z.nextId + 1, Z.events⟩ := by
            simp [stepTodo, hl, hfz', schedOf]
          rw [e1, e2]
          apply ih _ _ (WF_appendCanvas hwfY hfy' _ _ _ _) (WF_appendCanvas hwfZ hfz' _ _ _ _)
          refine ⟨congrArg Nat.succ hn, he, ?_⟩
          apply forall₂_append_rel
          · apply forall₂_imp_mem hf
            intro u v hu _ h
            refine rowRelT_transfer h ?_
            intro a'' hass hlock huc _
            injection hass with hh
            subst hh
            have hnp := List.find?_eq_none.mp hfy u hu
            simp only [canvasPred, decide_eq_true_eq, not_and] at hnp
            exact hnp huc
          · refine .cons (.inl ?_) .nil
            rw [hn]
        · obtain ⟨hid, horr, hext, hnotes, hcre, hcomp, harat, harr⟩ := rowRelT_fields hxz
          have hfy' : findCanvas Y a'.id = some x := hfy
          have hfz' : findCanvas Z a'.id = some z := hfz
          by_cases harch : x.archived_reason.isSome
          · have harchz : z.archived_reason.isSome := by rw [← harr]; exact harch
            have e1 : stepTodo derive now Y ⟨some a'⟩ = Y := by
              simp [stepTodo, hl, hfy', harch]
            have e2 : stepTodo derive now Z ⟨some a'⟩ = Z := by
              simp [stepTodo, hl, hfz', harchz]
            rw [e1, e2]
            apply ih Y Z hwfY hwfZ
            refine ⟨hn, he, forall₂_imp_mem hf ?_⟩
            intro u v hu _ h
            refine rowRelT_transfer h ?_
            intro a'' hass hlock huc hured
            injection hass with hh
            subst hh
            intro hue
            have hpx := List.find?_some hfy
            simp only [canvasPred, decide_eq_true_eq] at hpx
            have hux : u = x := ext_unique hwfY hu hxmem huc hpx.1 hue hpx.2
            rw [hux] at hured
            rw [hured] at harch
            simp at harch
          · have harchz : z.archived_reason.isSome = false := by
              rw [← harr]
              exact Bool.not_eq_true _ ▸ harch
            have e1 : stepTodo derive now Y ⟨some a'⟩ =
                updateCanvasItem x.id a'.name (normStr a'.due_at) (schedOf derive a'.due_at)
                  (match normStr a'.created_at with | some cc => cc | none => now) Y := by
              simp [stepTodo, hl, hfy', harch, schedOf]
            have e2 : stepTodo derive now Z ⟨some a'⟩ =
                updateCanvasItem z.id a'.name (normStr a'.due_at) (schedOf derive a'.due_at)
                  (match normStr a'.created_at with | some cc => cc | none => now) Z := by
              simp [stepTodo, hl, hfz', harchz, schedOf]
            rw [e1, e2, ← hid]
            apply ih _ _ (WF_updateCanvasItem hwfY _ _ _ _ _) (WF_updateCanvasItem hwfZ _ _ _ _ _)
            refine ⟨hn, he, ?_⟩
            apply forall₂_map_strong hf
            intro u v hu hv h
            by_cases huid : u.id = x.id
            · have hux : u = x := id_unique hwfY hu hxmem huid
              have hvid : v.id = z.id := by
                obtain ⟨hid', _⟩ := rowRelT_fields h
                rw [← hid', hux, hid]
              have hvz : v = z := id_unique hwfZ hv hzmem hvid
              refine .inl ?_
              rw [hux, hvz]
              have hxif : x.id = x.id := rfl
              simp only [if_pos hxif, if_pos (hid.symm ▸ hvid ▸ rfl : z.id = x.id)]
              simp [updRow, hid, hext, horr, hnotes, hcre, hcomp, harat, harr]
            · have hvid : ¬ v.id = x.id := by
                obtain ⟨hid', _⟩ := rowRelT_fields h
                rw [← hid']
                exact huid
              refine rowRelT_transfer (c := ⟨some a'⟩) ?_ ?_
              · simpa [huid, hvid] using h
              · intro a'' hass hlock hgc _
                injection hass with hh
                subst hh
                simp only [if_neg huid] at hgc ⊢
                intro hue
                have hpx := List.find?_some hfy
                simp only [canvasPred, decide_eq_true_eq] at hpx
                have hux : u = x := ext_unique hwfY hu hxmem hgc hpx.1 hue hpx.2
                exact huid (by rw [hux])

theorem forall₂_map_left {S : PlannerRow → PlannerRow → Prop} {g : PlannerRow → PlannerRow} :
    ∀ (l : List PlannerRow), (∀ u ∈ l, S (g u) u) → List.Forall₂ S (l.map g) l
  | [], _ => .nil
  | x :: tl, h =>
    .cons (h x (List.mem_cons_self x tl))
      (forall₂_map_left tl (fun u hu => h u (List.mem_cons_of_mem x hu)))

theorem findCanvas_isSome_step {Y : DbState} (derive : String → Option String) (now : String)
    (td : CanvasTodo) {e : Nat} (h : (findCanvas Y e).isSome) :
    (findCanvas (stepTodo derive now Y td) e).isSome := by
  obtain ⟨oa⟩ := td
  cases oa with
  | none => exact h
  | some a' =>
    by_cases hl : a'.locked_for_user
    · simpa [stepTodo, hl] using h
    · cases hfind : findCanvas Y a'.id with
      | none =>
        have e1 : stepTodo derive now Y ⟨some a'⟩ =
            ⟨Y.rows ++ [mkCanvasRow Y.nextId a'.id a'.name (normStr a'.due_at)
              (schedOf derive a'.due_at)
              (match normStr a'.created_at with | some cc => cc | none => now)],
             Y.nextId + 1, Y.events⟩ := by
          simp [stepTodo, hl, hfind, schedOf]
        rw [e1]
        obtain ⟨ρ, hρ⟩ := Option.isSome_iff_exists.mp h
        show (List.find? (canvasPred e) (Y.rows ++ _)).isSome
        rw [List.find?_append, show List.find? (canvasPred e) Y.rows = some ρ from hρ]
        rfl
      | some r0 =>
        by_cases harch : r0.archived_reason.isSome
        · simpa [stepTodo, hl, hfind, harch] using h
        · have e1 : stepTodo derive now Y ⟨some a'⟩ =
              updateCanvasItem r0.id a'.name (normStr a'.due_at) (schedOf derive a'.due_at)
                (match normStr a'.created_at with | some cc => cc | none => now) Y := by
            simp [stepTodo, hl, hfind, harch, schedOf]
          rw [e1, findCanvas_updateCanvasItem]
          simpa using h

theorem findCanvas_isSome_sync {Y : DbState} (derive : String → Option String) (now : String)
    (t : List CanvasTodo) {e : Nat} (h : (findCanvas Y e).isSome) :
    (findCanvas (syncCanvasAssignments derive now t Y) e).isSome := by
  induction t generalizing Y with
  | nil => exact h
  | cons td rest ih => exact ih (findCanvas_isSome_step derive now td h)

theorem sync_idem (derive : String → Option String) :
    ∀ (batch : List CanvasTodo) (s : DbState) (n₁ n₂ : String), WF s →
      syncCanvasAssignments derive n₂ batch (syncCanvasAssignments derive n₁ batch s) =
        syncCanvasAssignments derive n₁ batch s := by
  intro batch
  induction batch with
  | nil => intro s _ _ _; rfl
  | cons c t ih =>
    intro s n₁ n₂ hwf
    show syncCanvasAssignments derive n₂ t (stepTodo derive n₂
        (syncCanvasAssignments derive n₁ t (stepTodo derive n₁ s c)) c) =
      syncCanvasAssignments derive n₁ t (stepTodo derive n₁ s c)
    have hwf₁ : WF (stepTodo derive n₁ s c) := WF_step hwf derive n₁ c
    have hwfX : WF (syncCanvasAssignments derive n₁ t (stepTodo derive n₁ s c)) :=
      WF_sync hwf₁ derive n₁ t
    have hIH : syncCanvasAssignments derive n₂ t
        (syncCanvasAssignments derive n₁ t (stepTodo derive n₁ s c)) =
        syncCanvasAssignments derive n₁ t (stepTodo derive n₁ s c) := ih _ n₁ n₂ hwf₁
    set X := syncCanvasAssignments derive n₁ t (stepTodo derive n₁ s c) with hXdef
    obtain ⟨oa⟩ := c
    cases oa with
    | none =>
      rw [show stepTodo derive n₂ X ⟨none⟩ = X from rfl]
      exact hIH
    | some a =>
      by_cases hl : a.locked_for_user
      · rw [show stepTodo derive n₂ X ⟨some a⟩ = X from by simp [stepTodo, hl]]
        exact hIH
      · have hlf : a.locked_for_user = false := Bool.not_eq_true _ ▸ hl
        by_cases hin : unfilteredIn t a.id
        · have hsome₁ : (findCanvas (stepTodo derive n₁ s ⟨some a⟩) a.id).isSome := by
            obtain ⟨ρ, hρ, _⟩ := step_resolves derive n₁ hlf (s := s)
            rw [hρ]
            rfl
          have hsome : (findCanvas X a.id).isSome :=
            findCanvas_isSome_sync derive n₁ t hsome₁
          obtain ⟨ρ, hρ⟩ := Option.isSome_iff_exists.mp hsome
          have hρmem : ρ ∈ X.rows := List.mem_of_find?_eq_some hρ
          have hρpred := List.find?_some hρ
          by_cases harch : ρ.archived_reason.isSome
          · rw [show stepTodo derive n₂ X ⟨some a⟩ = X from by simp [stepTodo, hl, hρ, harch]]
            exact hIH
          · have e1 : stepTodo derive n₂ X ⟨some a⟩ =
                updateCanvasItem ρ.id a.name (normStr a.due_at) (schedOf derive a.due_at)
                  (match normStr a.created_at with | some cc => cc | none => n₂) X := by
              simp [stepTodo, hl, hρ, harch, schedOf]
            rw [e1]
            rw [RelT_sync derive n₂ t _ X (WF_updateCanvasItem hwfX _ _ _ _ _) hwfX ?_]
            · exact hIH
            · refine ⟨rfl, rfl, ?_⟩
              apply forall₂_map_left
              intro u hu
              by_cases huid : u.id = ρ.id
              · have hux : u = ρ := id_unique hwfX hu hρmem huid
                rw [if_pos huid, hux]
                simp only [canvasPred, decide_eq_true_eq] at hρpred
                obtain ⟨cc, hcc⟩ := Option.ne_none_iff_exists'.mp (hwfX.2.2.2.2.1 ρ hρmem)
                refine .inr ⟨rfl, rfl, rfl, rfl, ?_, rfl, rfl, rfl, ?_, ?_, ?_, a.id, ?_, hin⟩
                · simp [updRow, hcc]
                · simpa [updRow] using hρpred.1
                · simpa [updRow] using Option.not_isSome_iff_eq_none.mp harch
                · simp [updRow]
                · simpa [updRow] using hρpred.2
              · rw [if_neg huid]
                exact .inl rfl
        · have hother : ∀ td ∈ t, ∀ a'', td.assignment = some a'' →
              a''.locked_for_user = false → a''.id ≠ a.id := by
            intro td htd a'' hass hlock heq
            exact hin ⟨td, htd, a'', hass, hlock, heq⟩
          have hres₁ : resolved derive a (stepTodo derive n₁ s ⟨some a⟩) :=
            step_resolves derive n₁ hlf
          have hres : resolved derive a X := resolved_sync_other hwf₁ hres₁ n₁ t hother
          rw [step_of_resolved hwfX hres n₂]
          exact hIH

/-- C2: for every schema-conforming store state, running the reconciliation
pass twice with the identical candidate batch (whatever wall-clock
fallbacks each pass uses) produces exactly the state of running it once,
and the synced state keeps `(origin, external_id)` unique for non-null
`external_id` — no duplicate row is ever created. -/
theorem c2_idempotent_sync (s : DbState) (hwf : WF s) (derive : String → Option String)
    (n₁ n₂ : String) (batch : List CanvasTodo) :
    syncCanvasAssignments derive n₂ batch (syncCanvasAssignments derive n₁ batch s) =
      syncCanvasAssignments derive n₁ batch s ∧
    (syncCanvasAssignments derive n₁ batch s).rows.Pairwise
      (fun x y => x.origin = y.origin → x.external_id ≠ none →
        x.external_id ≠ y.external_id) := by
  refine ⟨sync_idem derive batch s n₁ n₂ hwf, ?_⟩
  have hwfS := WF_sync hwf derive n₁ batch
  have hmanual := hwfS.2.2.2.2.2.1
  refine (hwfS.2.2.2.2.2.2).imp_of_mem ?_
  intro x y hx _ h horig hne
  cases hox : x.origin with
  | canvas =>
    cases hoy : y.origin with
    | canvas => exact h hox hoy hne
    | manual => rw [hox, hoy] at horig; cases horig
  | manual => exact absurd (hmanual x hx hox) hne

theorem c2_witness :
    WF c10State ∧
    (syncCanvasAssignments (fun _ => none) "2024-06-02T00:00:00Z" c2Batch
        (syncCanvasAssignments (fun _ => none) "2024-06-01T00:00:00Z" c2Batch c10State) =
      syncCanvasAssignments (fun _ => none) "2024-06-01T00:00:00Z" c2Batch c10State ∧
    (syncCanvasAssignments (fun _ => none) "2024-06-01T00:00:00Z" c2Batch c10State).rows.Pairwise
      (fun x y => x.origin = y.origin → x.external_id ≠ none →
        x.external_id ≠ y.external_id)) :=
  ⟨by decide, c2_idempotent_sync c10State (by decide) (fun _ => none)
    "2024-06-01T00:00:00Z" "2024-06-02T00:00:00Z" c2Batch⟩
